import Mathlib

/-!
# Verification of the 3d-models-library core

Shallow embedding of the algorithmic core of the repository:
the STL parser (`src/utils/stlLoader.ts`), the adaptive framing scale
(`src/utils/previewGenerator.ts`, `src/components/Modal3DViewer.tsx`),
and the preview cache hook (`src/hooks/useModelPreview.ts`).

Modelling conventions:
* JavaScript numbers are modelled as exact rationals (`ℚ`); the framing
  formulas involve only +, -, *, / on small constants, where IEEE-754
  rounding is monotone and many orders of magnitude below every gap the
  theorems rely on.
* Byte buffers (`ArrayBuffer`) are `List Nat`, each entry a byte value.
* 32-bit floats read from binary STL are kept as their raw little-endian
  32-bit words (the parser only moves them, never computes with them);
  numeric tokens of ASCII STL are kept as their raw character tokens
  (`parseFloat` is applied pointwise by the source and does not affect
  any counted quantity).
* Timestamps (`Date.now()`) are `ℤ` milliseconds.
-/

namespace ModelsLib

/-! ## FramingCalculator: `PreviewGenerator.calculateAdaptiveScale`
(src/utils/previewGenerator.ts lines 107-145) -/

/-- Embeds `PreviewGenerator.calculateAdaptiveScale` from
`src/utils/previewGenerator.ts`: adaptive scale for the still-preview
generator.  `modelSize <= 0` returns the fallback `3.0`; otherwise a
five-bucket piecewise formula followed by the final
`Math.max(scale, 0.5)` clamp. -/
def calculateAdaptiveScale (modelSize : ℚ) : ℚ :=
  if modelSize ≤ 0 then 3
  else
    let scale : ℚ :=
      if modelSize < 1/10 then 50
      else if modelSize < 1 then 15 + (1 - modelSize) * 35
      else if modelSize < 10 then 3 + (10 - modelSize) / 9 * 12
      else if modelSize < 100 then 1 + (100 - modelSize) / 90 * 2
      else max (1/2) (100 / modelSize)
    max scale (1/2)

/-- Embeds `Model3DViewer.calculateAdaptiveScale` from
`src/components/Modal3DViewer.tsx` lines 209-247: the interactive-viewer
variant with its own constants (fallback `2.0`, floor `0.3`). -/
def modalAdaptiveScale (modelSize : ℚ) : ℚ :=
  if modelSize ≤ 0 then 2
  else
    let scale : ℚ :=
      if modelSize < 1/10 then 30
      else if modelSize < 1 then 10 + (1 - modelSize) * 20
      else if modelSize < 10 then 2 + (10 - modelSize) / 9 * 8
      else if modelSize < 100 then 8/10 + (100 - modelSize) / 90 * (12/10)
      else max (3/10) (80 / modelSize)
    max scale (3/10)

/-- The value `f` approaches from the left at `b` is `v`: `f` is
eventually constantly `v` on a left neighbourhood of `b`.  This is the
form the left limit takes for the piecewise scale functions at the
bucket boundary `0.1`, where the lower bucket is constant. -/
def LeftValEq (f : ℚ → ℚ) (b v : ℚ) : Prop :=
  ∃ δ : ℚ, 0 < δ ∧ ∀ x : ℚ, b - δ < x → x < b → f x = v

/-- `f` is continuous from the left at `b`: values from below approach
`f b`. -/
def LeftContAt (f : ℚ → ℚ) (b : ℚ) : Prop :=
  ∀ ε : ℚ, 0 < ε → ∃ δ : ℚ, 0 < δ ∧
    ∀ x : ℚ, b - δ < x → x < b → |f x - f b| < ε

/-! ## MeshParser: `STLLoader` (src/unnamed/part_000, `stlLoader.ts`) -/

/-- One decoded character of `TextDecoder().decode`: ASCII bytes decode
to themselves; bytes of non-ASCII UTF-8 sequences decode to characters
outside the ASCII range, collapsed here to U+FFFD (the decoded text is
only ever inspected for ASCII tokens and ASCII line structure, which
multi-byte sequences never produce). -/
def byteToChar (b : Nat) : Char :=
  if b < 128 then Char.ofNat b else '�'

/-- `String.prototype.toLowerCase` restricted to the ASCII range (the
only case folding that can produce letters of the ASCII token
`solid`). -/
def charToLower (c : Char) : Char :=
  if 'A' ≤ c ∧ c ≤ 'Z' then Char.ofNat (c.toNat + 32) else c

/-- `String.prototype.startsWith` on character lists. -/
def startsWithTok : List Char → List Char → Bool
  | [], _ => true
  | _ :: _, [] => false
  | p :: ps, c :: cs => p == c && startsWithTok ps cs

/-- `String.prototype.includes` on character lists: some suffix starts
with the pattern. -/
def containsTok (pat : List Char) : List Char → Bool
  | [] => startsWithTok pat []
  | c :: cs => startsWithTok pat (c :: cs) || containsTok pat cs

/-- Embeds `STLLoader.isASCII` (src/unnamed/part_000 lines 37-40):
decode the first 80 bytes, lower-case them, and look for `solid`. -/
def isASCII (data : List Nat) : Bool :=
  containsTok "solid".toList (((data.take 80).map byteToChar).map charToLower)

/-- `String.prototype.split('\n')`. -/
def splitOnNl : List Char → List (List Char)
  | [] => [[]]
  | c :: cs =>
    if c = '\n' then [] :: splitOnNl cs
    else
      match splitOnNl cs with
      | [] => [[c]]
      | l :: ls => (c :: l) :: ls

/-- ASCII whitespace, the class JS `trim`/`\s` recognises on ASCII
STL input. -/
def isWhite (c : Char) : Bool :=
  c == ' ' || c == '\t' || c == '\r' || c == '\n' || c == '\x0b' || c == '\x0c'

/-- `String.prototype.trim` on character lists. -/
def trimLine (l : List Char) : List Char :=
  ((l.dropWhile isWhite).reverse.dropWhile isWhite).reverse

/-- Accumulator for `split(/\s+/)` on a trimmed line: the maximal
whitespace-free words in order. -/
def wordsAux : Option (List Char) → List Char → List (List Char)
  | none, [] => []
  | some w, [] => [w.reverse]
  | none, c :: cs =>
    if isWhite c then wordsAux none cs else wordsAux (some [c]) cs
  | some w, c :: cs =>
    if isWhite c then w.reverse :: wordsAux none cs
    else wordsAux (some (c :: w)) cs

/-- `line.split(/\s+/)` for a line with no leading whitespace. -/
def wordsOf (l : List Char) : List (List Char) := wordsAux none l

/-- `parts[i]` of the JS token array: a missing index is `undefined`
(whose `parseFloat` is `NaN`); we keep the raw token, `[]` for a
missing one. -/
def getPart (ps : List (List Char)) (i : Nat) : List Char := ps.getD i []

/-- The triangle-soup geometry built by the parser: flat `position` and
`normal` attributes, one `(x, y, z)` triple per entry.  `α` is the
scalar representation: raw numeric tokens for the ASCII path, raw
little-endian 32-bit words for the binary path. -/
structure Geometry (α : Type) where
  positions : List (α × α × α)
  normals : List (α × α × α)
deriving DecidableEq, Repr

/-- One iteration of the `parseASCII` line loop
(src/unnamed/part_000 lines 50-72): a `facet normal` line replaces the
current normal; a `vertex` line pushes one position and, when a current
normal exists, one copy of it onto the normals. -/
def parseASCIIStep (cur : Option (List Char × List Char × List Char))
    (geo : Geometry (List Char)) (rawLine : List Char) :
    Option (List Char × List Char × List Char) × Geometry (List Char) :=
  let line := trimLine rawLine
  if startsWithTok "facet normal".toList line then
    let parts := wordsOf line
    (some (getPart parts 2, getPart parts 3, getPart parts 4), geo)
  else if startsWithTok "vertex".toList line then
    let parts := wordsOf line
    let geo' := { geo with
      positions := geo.positions ++ [(getPart parts 1, getPart parts 2, getPart parts 3)] }
    match cur with
    | some n => (cur, { geo' with normals := geo'.normals ++ [n] })
    | none => (cur, geo')
  else (cur, geo)

/-- Embeds `STLLoader.parseASCII` (src/unnamed/part_000 lines 42-78). -/
def parseASCII (data : List Char) : Geometry (List Char) :=
  ((splitOnNl data).foldl (fun st l => parseASCIIStep st.1 st.2 l)
    (none, ⟨[], []⟩)).2

/-- A 4-byte little-endian `DataView` read (`getUint32`/`getFloat32`
with `littleEndian = true`); `none` models the `RangeError` thrown on
an out-of-bounds access.  `getFloat32` values are kept as their raw
32-bit words. -/
def rd (l : List Nat) (off : Nat) : Option Nat :=
  if off + 4 ≤ l.length then
    some (l.getD off 0 + 256 * (l.getD (off+1) 0 +
      256 * (l.getD (off+2) 0 + 256 * l.getD (off+3) 0)))
  else none

/-- The failure of the binary parser: the `RangeError` a `DataView`
access throws when the buffer is too short (what the spec calls
`TruncatedError`). -/
inductive BinErr
  | outOfBounds
deriving DecidableEq, Repr

/-- The face loop of `STLLoader.parseBinary`
(src/unnamed/part_000 lines 88-107), the inner 3-vertex loop unrolled:
each 50-byte record contributes 12 4-byte reads (offsets
`off .. off+44`), three positions, and three copies of the facet
normal; the trailing 2 attribute bytes are skipped without a read. -/
def parseBinaryFaces (l : List Nat) :
    Nat → Nat → Geometry Nat → Except BinErr (Geometry Nat)
  | 0, _, geo => .ok geo
  | k+1, off, geo =>
    match rd l off, rd l (off+4), rd l (off+8),
        rd l (off+12), rd l (off+16), rd l (off+20),
        rd l (off+24), rd l (off+28), rd l (off+32),
        rd l (off+36), rd l (off+40), rd l (off+44) with
    | some n1, some n2, some n3, some a1, some a2, some a3,
      some b1, some b2, some b3, some c1, some c2, some c3 =>
        parseBinaryFaces l k (off + 50)
          { positions := geo.positions ++ [(a1,a2,a3), (b1,b2,b3), (c1,c2,c3)],
            normals := geo.normals ++ [(n1,n2,n3), (n1,n2,n3), (n1,n2,n3)] }
    | _, _, _, _, _, _, _, _, _, _, _, _ => .error .outOfBounds

/-- Embeds `STLLoader.parseBinary` (src/unnamed/part_000 lines 80-113):
read the uint32 face count at byte 80, then the face loop from
offset 84. -/
def parseBinary (l : List Nat) : Except BinErr (Geometry Nat) :=
  match rd l 80 with
  | some faces => parseBinaryFaces l faces 84 ⟨[], []⟩
  | none => .error .outOfBounds

/-- Embeds `STLLoader.parseSTL` (src/unnamed/part_000 lines 27-35):
dispatch on `isASCII`; the ASCII path decodes the whole buffer first. -/
def parseSTL (data : List Nat) :
    Except BinErr (Geometry (List Char) ⊕ Geometry Nat) :=
  if isASCII data then .ok (.inl (parseASCII (data.map byteToChar)))
  else (parseBinary data).map .inr


deriving instance DecidableEq for Except

/-- The declared uint32 face count at byte 80 (`0` when the buffer is
too short to contain bytes 80-83). -/
def faceCountOf (l : List Nat) : Nat := (rd l 80).getD 0

/-- Scanning lines in order: no `vertex` line occurs before the first
`facet normal` line. -/
def noEarlyLines : List (List Char) → Bool
  | [] => true
  | l :: ls =>
    let t := trimLine l
    if startsWithTok "facet normal".toList t then true
    else if startsWithTok "vertex".toList t then false
    else noEarlyLines ls

/-- No `vertex` line of the ASCII input precedes its first
`facet normal` line. -/
def noEarlyVertex (s : List Char) : Bool := noEarlyLines (splitOnNl s)

/-- The spec's classification rule, stated independently of the
implementation: some window of the decoded first 80 bytes matches
`solid` case-insensitively. -/
def specAsciiRule (data : List Nat) : Bool :=
  let h := (data.take 80).map byteToChar
  (List.range (h.length + 1)).any fun i =>
    decide (((h.drop i).take 5).map charToLower = "solid".toList)

/-- Concrete input: ASCII STL whose `vertex` lines all precede the
first (absent) `facet normal` line. -/
def earlyVertexInput : List Nat :=
  ("solid x\nvertex 0 0 0\nvertex 1 0 0\nvertex 0 1 0\nendsolid").toList.map
    Char.toNat

/-- Concrete input (spec §8 scenario B): one facet preceded by its
normal line. -/
def facetFirstInput : List Char :=
  ("solid x\nfacet normal 0 0 1\nouter loop\nvertex 0 0 0\nvertex 1 0 0\nvertex 0 1 0\nendloop\nendfacet\nendsolid").toList

/-- Concrete input: a binary STL buffer declaring one triangle but only
132 = 84 + 50 - 2 bytes long — the trailing 2 attribute bytes of the
record are missing. -/
def bin132 : List Nat :=
  List.replicate 80 0 ++ [1, 0, 0, 0] ++ List.replicate 48 0

/-- Concrete input: a complete one-triangle binary STL buffer
(134 bytes). -/
def bin134 : List Nat :=
  List.replicate 80 0 ++ [1, 0, 0, 0] ++ List.replicate 50 0

/-! ## Cache keys: `getCacheKey` (src/hooks/useModelPreview.ts lines
38-51), with models of the `JSON.stringify` and `btoa` builtins it
composes. -/

/-- A primitive JSON value of a preview-options field: a number
(modelled as an integer — the recognised numeric options are widths,
heights and colours) or a string. -/
inductive JAtom where
  | jnum (n : ℤ)
  | jstr (s : List Char)
deriving DecidableEq, Repr

/-- A preview-options field value: an atom, or a nested one-level
object (`cameraPosition`, `lighting`). -/
inductive JVal where
  | atom (a : JAtom)
  | obj (fs : List (List Char × JAtom))
deriving DecidableEq, Repr

/-- A JS options object as `JSON.stringify` sees it: its fields in
insertion order. -/
abbrev JObj := List (List Char × JVal)

/-- The character of a decimal digit. -/
def digitChar (d : Nat) : Char := Char.ofNat (48 + d)

/-- Decimal digits of `n`, least significant first (fuel-driven so the
definition is structural). -/
def digitsRevFuel : Nat → Nat → List Nat
  | 0, _ => []
  | fuel+1, n => if n < 10 then [n] else n % 10 :: digitsRevFuel fuel (n / 10)

/-- Decimal rendering of a natural number. -/
def renderNat (n : Nat) : List Char :=
  ((digitsRevFuel (n+1) n).reverse).map digitChar

/-- `JSON.stringify` of an integer. -/
def renderInt : ℤ → List Char
  | .ofNat n => renderNat n
  | .negSucc m => '-' :: renderNat (m+1)

/-- `JSON.stringify` of an atom; strings are quoted (escaping is
modelled as the identity, backed by the `goodStrB` hypothesis that the
string has no quote or backslash, which holds for every recognised
option value). -/
def renderAtom : JAtom → List Char
  | .jnum n => renderInt n
  | .jstr s => '"' :: s ++ ['"']

/-- One `"key":atom` field of a nested object. -/
def renderFieldA (f : List Char × JAtom) : List Char :=
  '"' :: f.1 ++ '"' :: ':' :: renderAtom f.2

/-- The remaining fields of a nested object, each preceded by the comma
separator, closed by `}`. -/
def renderFieldsA : List (List Char × JAtom) → List Char
  | [] => [ '}' ]
  | f :: fs => ',' :: renderFieldA f ++ renderFieldsA fs

/-- `JSON.stringify` of a nested object. -/
def renderObjA (fs : List (List Char × JAtom)) : List Char :=
  match fs with
  | [] => '{' :: [ '}' ]
  | f :: fs' => '{' :: renderFieldA f ++ renderFieldsA fs'

/-- `JSON.stringify` of a field value. -/
def renderVal : JVal → List Char
  | .atom a => renderAtom a
  | .obj fs => renderObjA fs

/-- One `"key":value` field of the options object. -/
def renderField (f : List Char × JVal) : List Char :=
  '"' :: f.1 ++ '"' :: ':' :: renderVal f.2

/-- The remaining fields of the options object. -/
def renderFields : JObj → List Char
  | [] => [ '}' ]
  | f :: fs => ',' :: renderField f ++ renderFields fs

/-- `JSON.stringify(previewOptions)`: fields are rendered in the
object's insertion order — `JSON.stringify` performs no key
canonicalisation. -/
def stringifyObj : JObj → List Char
  | [] => '{' :: [ '}' ]
  | f :: fs => '{' :: renderField f ++ renderFields fs

/-- JSON string escaping for the options string embedded in the key
data (quotes and backslashes get a backslash). -/
def escapeJson (s : List Char) : List Char :=
  s.flatMap fun c =>
    if c = '"' then ['\\', '"']
    else if c = '\\' then ['\\', '\\'] else [c]

/-- A quoted, escaped JSON string literal. -/
def renderJStr (s : List Char) : List Char := '"' :: escapeJson s ++ ['"']

/-- `JSON.stringify(keyData)` for
`keyData = {url, custom: cacheKey, options}`: `custom` is omitted when
the caller supplied no cache key (`JSON.stringify` drops `undefined`
fields), and `options` is the stringified options object as a string
value, or `null` when no options were given. -/
def keyString (url : List Char) (custom : Option (List Char))
    (opts : Option JObj) : List Char :=
  '{' :: ("\"url\":".toList ++ renderJStr url) ++
    (match custom with
     | none => []
     | some c => ',' :: "\"custom\":".toList ++ renderJStr c) ++
    (',' :: "\"options\":".toList ++
      (match opts with
       | none => "null".toList
       | some o => renderJStr (stringifyObj o))) ++ [ '}' ]

/-- The base64 alphabet of `btoa`. -/
def b64Tbl : List Char :=
  "ABCDEFGHIJKLMNOPQRSTUVWXYZabcdefghijklmnopqrstuvwxyz0123456789+/".toList

/-- Sextet to base64 character. -/
def tbl (i : Nat) : Char := b64Tbl.getD i '?'

/-- Base64 character back to its sextet. -/
def untbl (c : Char) : Nat := b64Tbl.indexOf c

/-- `btoa` on the byte values of a Latin-1 string: standard base64
with `=` padding. -/
def b64Encode : List Nat → List Char
  | [] => []
  | [a] => [tbl (a / 4), tbl (a % 4 * 16), '=', '=']
  | [a, b] => [tbl (a / 4), tbl (a % 4 * 16 + b / 16), tbl (b % 16 * 4), '=']
  | a :: b :: c :: rest =>
    tbl (a / 4) :: tbl (a % 4 * 16 + b / 16) :: tbl (b % 16 * 4 + c / 64) ::
      tbl (c % 64) :: b64Encode rest

/-- Base64 decoding, the inverse used to prove `b64Encode` injective. -/
def b64Decode : List Char → List Nat
  | c1 :: c2 :: c3 :: c4 :: rest =>
    if c3 = '=' then [untbl c1 * 4 + untbl c2 / 16]
    else if c4 = '=' then
      [untbl c1 * 4 + untbl c2 / 16, untbl c2 % 16 * 16 + untbl c3 / 4]
    else
      (untbl c1 * 4 + untbl c2 / 16) :: (untbl c2 % 16 * 16 + untbl c3 / 4) ::
        (untbl c3 % 4 * 64 + untbl c4) :: b64Decode rest
  | _ => []

/-- `btoa` succeeds exactly when every char code is below 256. -/
def btoaOk (s : List Char) : Bool := s.all fun c => c.toNat < 256

/-- An uppercase hexadecimal digit. -/
def hexDigit (n : Nat) : Char :=
  if n < 10 then Char.ofNat (48 + n) else Char.ofNat (55 + n)

/-- UTF-8 bytes of a character. -/
def utf8Bytes (c : Char) : List Nat :=
  let n := c.toNat
  if n < 128 then [n]
  else if n < 2048 then [192 + n / 64, 128 + n % 64]
  else if n < 65536 then [224 + n / 4096, 128 + n / 64 % 64, 128 + n % 64]
  else [240 + n / 262144, 128 + n / 4096 % 64, 128 + n / 64 % 64, 128 + n % 64]

/-- A character `encodeURIComponent` leaves unescaped. -/
def isUnreserved (c : Char) : Bool :=
  c.isAlphanum || c == '-' || c == '_' || c == '.' || c == '!' || c == '~' ||
    c == '*' || c == Char.ofNat 39 || c == '(' || c == ')'

/-- `encodeURIComponent`, the fallback of `getCacheKey` when `btoa`
throws (a char code above 255). -/
def encodeURIComponentM (s : List Char) : List Char :=
  s.flatMap fun c =>
    if isUnreserved c then [c]
    else (utf8Bytes c).flatMap fun b => ['%', hexDigit (b / 16), hexDigit (b % 16)]

/-- The `model_preview_` cache-key namespace of the hook. -/
def previewKeyHead : List Char := "model_preview_".toList

/-- Embeds `getCacheKey` (src/hooks/useModelPreview.ts lines 38-51):
serialise `{url, custom, options}` and base64 it, falling back to
percent-encoding when `btoa` would throw. -/
def getCacheKey (url : List Char) (custom : Option (List Char))
    (opts : Option JObj) : List Char :=
  let ks := keyString url custom opts
  if btoaOk ks then previewKeyHead ++ b64Encode (ks.map Char.toNat)
  else previewKeyHead ++ encodeURIComponentM ks

/-- A string with no quote and no backslash: JSON escaping is the
identity on it.  Holds for every recognised option field name and
value. -/
def goodStrB (s : List Char) : Bool :=
  s.all fun c => !(c == '"') && !(c == '\\')

/-- Well-formed atom: its string (if any) needs no escaping. -/
def goodAtom : JAtom → Bool
  | .jnum _ => true
  | .jstr s => goodStrB s

/-- Well-formed nested-object fields. -/
def goodFieldsA (fs : List (List Char × JAtom)) : Bool :=
  fs.all fun f => goodStrB f.1 && goodAtom f.2

/-- Well-formed field value. -/
def goodVal : JVal → Bool
  | .atom a => goodAtom a
  | .obj fs => goodFieldsA fs

/-- Well-formed options object. -/
def goodObj (o : JObj) : Bool := o.all fun f => goodStrB f.1 && goodVal f.2

/-- Concrete options `{width: 400, height: 300}`. -/
def optsWH : JObj :=
  [("width".toList, .atom (.jnum 400)), ("height".toList, .atom (.jnum 300))]

/-- The same logical options with the fields in the other order:
`{height: 300, width: 400}`. -/
def optsHW : JObj :=
  [("height".toList, .atom (.jnum 300)), ("width".toList, .atom (.jnum 400))]

/-- Options differing from `optsWH` in the single field `height`. -/
def optsWH301 : JObj :=
  [("width".toList, .atom (.jnum 400)), ("height".toList, .atom (.jnum 301))]

/-- Inverse of `escapeJson`, used to prove it injective. -/
def unescapeJson : List Char → List Char
  | [] => []
  | c :: rest =>
    if c = '\\' then
      match rest with
      | [] => []
      | d :: rest2 => d :: unescapeJson rest2
    else c :: unescapeJson rest

/-- A decimal digit character. -/
def isDigitCh (c : Char) : Bool := '0' ≤ c && c ≤ '9'

/-- Value of a little-endian decimal digit list — the inverse used to
prove the decimal rendering injective. -/
def valDR : List Nat → Nat
  | [] => 0
  | d :: ds => d + 10 * valDR ds

/-! ## PreviewCache and hook state (src/hooks/useModelPreview.ts) -/

/-- One parsed `localStorage` record as written by `saveToCache`
(src/hooks/useModelPreview.ts lines 89-103). -/
structure CacheData where
  dataUrl : String
  timestamp : ℤ
  modelUrl : String
  options : Option String
deriving DecidableEq, Repr

/-- The `localStorage` backing store. -/
abbrev Store := List (String × CacheData)

/-- `localStorage.getItem` (plus the `JSON.parse` of the stored
record). -/
def getItem (st : Store) (k : String) : Option CacheData :=
  (st.find? fun e => e.1 == k).map fun e => e.2

/-- `localStorage.setItem`: overwrite the key's entry or append. -/
def setItem (st : Store) (k : String) (v : CacheData) : Store :=
  match st with
  | [] => [(k, v)]
  | e :: rest => if e.1 == k then (k, v) :: rest else e :: setItem rest k v

/-- `localStorage.removeItem`. -/
def removeItem (st : Store) (k : String) : Store :=
  st.filter fun e => !(e.1 == k)

/-- `CACHE_EXPIRY_DAYS * 24 * 60 * 60 * 1000` (line 61). -/
def cacheExpiryMs : ℤ := 7 * 24 * 60 * 60 * 1000

/-- Embeds `isCacheValid` (lines 54-64).  JS truthiness: a record with
`timestamp` 0 or an empty `dataUrl` is rejected by
`!cacheData.timestamp || !cacheData.dataUrl`; otherwise the record is
fresh when `now - timestamp < maxAge`. -/
def isCacheValid (cd : CacheData) (now : ℤ) : Bool :=
  if cd.timestamp == 0 || cd.dataUrl == "" then false
  else decide (now - cd.timestamp < cacheExpiryMs)

/-- Embeds `loadFromCache` (lines 67-86): return the cached data URL
when present and fresh; delete the entry and return nothing when
present but stale. -/
def loadFromCache (st : Store) (key : String) (now : ℤ) :
    Option String × Store :=
  match getItem st key with
  | some cd =>
    if isCacheValid cd now then (some cd.dataUrl, st)
    else (none, removeItem st key)
  | none => (none, st)

/-- Embeds `saveToCache` (lines 89-103). -/
def saveToCache (st : Store) (key : String) (dataUrl modelUrl : String)
    (options : Option String) (now : ℤ) : Store :=
  setItem st key ⟨dataUrl, now, modelUrl, options⟩

/-- The hook-instance state of `useModelPreview`, with two ghost
counters for render sessions started and resolved. -/
structure HookState where
  previewUrl : Option String
  isGenerating : Bool
  error : Option String
  store : Store
  started : Nat
  finished : Nat
deriving DecidableEq, Repr

/-- The synchronous prefix of `generatePreview` (lines 106-116).  The
`isGenerating || !modelUrl` guard reads `isGenerating` from the React
closure in which the call was created: `snap` is that render-captured
value.  It equals the committed `isGenerating` only when the closure
was rendered after the previous state update committed; two calls in
immediate succession within one render both carry the stale
`snap = false`.  A call that passes the guard enters the generating
state and starts one render session (the `generateModelPreview`
call). -/
def generateStart (url : String) (snap : Bool) (s : HookState) : HookState :=
  if snap || url == "" then s
  else { s with isGenerating := true, error := none, started := s.started + 1 }

/-- The resumption of `generatePreview` after `generateModelPreview`
settles (lines 116-138): a data URL passing the `length > 100` check is
published and written to the cache; anything else surfaces an error
message, leaves the cache untouched, and the `finally` clears
`isGenerating`. -/
def generateFinish (url key : String) (opts : Option String)
    (res : Except String String) (now : ℤ) (s : HookState) : HookState :=
  if s.isGenerating = false then s
  else
    match res with
    | .ok dataUrl =>
      if !(dataUrl == "") && decide (100 < dataUrl.length) then
        { s with previewUrl := some dataUrl,
                 store := saveToCache s.store key dataUrl url opts now,
                 isGenerating := false, finished := s.finished + 1 }
      else
        { s with
            error := some "Generated preview appears to be invalid or too short",
            isGenerating := false, finished := s.finished + 1 }
    | .error msg =>
      { s with error := some msg, isGenerating := false,
               finished := s.finished + 1 }

/-- The image sanity check of `PreviewGenerator.generatePreview`
(src/utils/previewGenerator.ts lines 223-230): an empty or short data
URL becomes a thrown error, otherwise the data URL is returned. -/
def generatorValidate (dataURL : String) : Except String String :=
  if dataURL == "" || decide (dataURL.length < 100) then
    .error "Generated preview is invalid"
  else .ok dataURL

/-- An event of one hook instance: a `generatePreview` call carrying
the `isGenerating` value captured by the closure it runs in, or the
settling of the in-flight render with its result and the current
time. -/
inductive HookEv where
  | call (snap : Bool)
  | finish (res : Except String String) (now : ℤ)
deriving Repr

/-- One event step of the hook instance identified by
`(url, key, opts)`. -/
def hookStep (url key : String) (opts : Option String) (s : HookState) :
    HookEv → HookState
  | .call snap => generateStart url snap s
  | .finish res now => generateFinish url key opts res now s

/-- Run a hook instance over a sequence of events. -/
def hookRun (url key : String) (opts : Option String) (s0 : HookState)
    (evs : List HookEv) : HookState :=
  evs.foldl (hookStep url key opts) s0

/-- The committed-read discipline on an event trace: every `call` is
made from a closure rendered after the previous state updates
committed, so its captured `isGenerating` equals the current one.
Same-tick repeated calls violate it — both read the stale value. -/
def freshReads (url key : String) (opts : Option String) :
    HookState → List HookEv → Bool
  | _, [] => true
  | s, .call snap :: evs =>
    (snap == s.isGenerating) &&
      freshReads url key opts (hookStep url key opts s (.call snap)) evs
  | s, .finish res now :: evs =>
    freshReads url key opts (hookStep url key opts s (.finish res now)) evs

/-- The initial hook state over a given backing store. -/
def initHookState (st : Store) : HookState := ⟨none, false, none, st, 0, 0⟩

/-- Embeds `clearCache` (lines 142-151): remove the slot's own derived
key and reset the published preview. -/
def clearCache (key : String) (s : HookState) : HookState :=
  { s with store := removeItem s.store key, previewUrl := none }

/-- The slot's derived cache key as a `String` store key. -/
def hookCacheKey (url : List Char) (custom : Option (List Char))
    (opts : Option JObj) : String :=
  ⟨getCacheKey url custom opts⟩

/-! ## Proofs -/

lemma calculateAdaptiveScale_antitone {x y : ℚ} (hx : 0 < x) (hxy : x ≤ y) :
    calculateAdaptiveScale y ≤ calculateAdaptiveScale x := by
  have hy : 0 < y := lt_of_lt_of_le hx hxy
  simp only [calculateAdaptiveScale]
  rw [if_neg (not_le.mpr hx), if_neg (not_le.mpr hy)]
  apply max_le_max _ le_rfl
  rcases lt_or_le y 100 with hy4 | hy4
  · split_ifs <;> linarith
  · rw [if_neg (by linarith : ¬ y < 1/10), if_neg (by linarith : ¬ y < 1),
      if_neg (by linarith : ¬ y < 10), if_neg (by linarith : ¬ y < 100)]
    have h1 : (100:ℚ)/y ≤ 1 := by
      rw [div_le_one (by linarith : (0:ℚ) < y)]; linarith
    have h2 : max (1/2 : ℚ) (100/y) ≤ 1 := max_le (by norm_num) h1
    rcases lt_or_le x 100 with hx4 | hx4
    · split_ifs <;> linarith
    · rw [if_neg (by linarith : ¬ x < 1/10), if_neg (by linarith : ¬ x < 1),
        if_neg (by linarith : ¬ x < 10), if_neg (by linarith : ¬ x < 100)]
      apply max_le_max le_rfl
      rw [div_le_div_iff₀ (by linarith) hx]
      nlinarith

lemma modalAdaptiveScale_antitone {x y : ℚ} (hx : 0 < x) (hxy : x ≤ y) :
    modalAdaptiveScale y ≤ modalAdaptiveScale x := by
  have hy : 0 < y := lt_of_lt_of_le hx hxy
  simp only [modalAdaptiveScale]
  rw [if_neg (not_le.mpr hx), if_neg (not_le.mpr hy)]
  apply max_le_max _ le_rfl
  rcases lt_or_le y 100 with hy4 | hy4
  · split_ifs <;> linarith
  · rw [if_neg (by linarith : ¬ y < 1/10), if_neg (by linarith : ¬ y < 1),
      if_neg (by linarith : ¬ y < 10), if_neg (by linarith : ¬ y < 100)]
    have h1 : (80:ℚ)/y ≤ 8/10 := by
      rw [div_le_iff₀ (by linarith : (0:ℚ) < y)]; linarith
    have h2 : max (3/10 : ℚ) (80/y) ≤ 8/10 := max_le (by norm_num) h1
    rcases lt_or_le x 100 with hx4 | hx4
    · split_ifs <;> linarith
    · rw [if_neg (by linarith : ¬ x < 1/10), if_neg (by linarith : ¬ x < 1),
        if_neg (by linarith : ¬ x < 10), if_neg (by linarith : ¬ x < 100)]
      apply max_le_max le_rfl
      rw [div_le_div_iff₀ (by linarith) hx]
      nlinarith

lemma calculateAdaptiveScale_one : calculateAdaptiveScale 1 = 15 := by
  simp only [calculateAdaptiveScale]
  norm_num

lemma calculateAdaptiveScale_ten : calculateAdaptiveScale 10 = 3 := by
  simp only [calculateAdaptiveScale]
  norm_num

lemma calculateAdaptiveScale_hundred : calculateAdaptiveScale 100 = 1 := by
  simp only [calculateAdaptiveScale]
  norm_num

lemma modalAdaptiveScale_one : modalAdaptiveScale 1 = 10 := by
  simp only [modalAdaptiveScale]
  norm_num

lemma modalAdaptiveScale_ten : modalAdaptiveScale 10 = 2 := by
  simp only [modalAdaptiveScale]
  norm_num

lemma modalAdaptiveScale_hundred : modalAdaptiveScale 100 = 8/10 := by
  simp only [modalAdaptiveScale]
  norm_num

lemma leftCont_calc_one : LeftContAt calculateAdaptiveScale 1 := by
  intro ε hε
  refine ⟨min (ε/35) (1/2), lt_min (by positivity) (by norm_num), ?_⟩
  intro x h1 h2
  have hm1 : min (ε/35) (1/2) ≤ ε/35 := min_le_left _ _
  have hm2 : min (ε/35) (1/2) ≤ 1/2 := min_le_right _ _
  have hfx : calculateAdaptiveScale x = 15 + (1 - x) * 35 := by
    simp only [calculateAdaptiveScale]
    rw [if_neg (by linarith), if_neg (by linarith), if_pos h2,
      max_eq_left (by linarith)]
  rw [hfx, calculateAdaptiveScale_one, abs_lt]
  constructor <;> linarith

lemma leftCont_calc_ten : LeftContAt calculateAdaptiveScale 10 := by
  intro ε hε
  refine ⟨min (3*ε/4) 1, lt_min (by positivity) (by norm_num), ?_⟩
  intro x h1 h2
  have hm1 : min (3*ε/4) 1 ≤ 3*ε/4 := min_le_left _ _
  have hm2 : min (3*ε/4) 1 ≤ 1 := min_le_right _ _
  have hfx : calculateAdaptiveScale x = 3 + (10 - x) / 9 * 12 := by
    simp only [calculateAdaptiveScale]
    rw [if_neg (by linarith), if_neg (by linarith), if_neg (by linarith),
      if_pos h2, max_eq_left (by linarith)]
  rw [hfx, calculateAdaptiveScale_ten, abs_lt]
  constructor <;> linarith

lemma leftCont_calc_hundred : LeftContAt calculateAdaptiveScale 100 := by
  intro ε hε
  refine ⟨min (45*ε) 1, lt_min (by positivity) (by norm_num), ?_⟩
  intro x h1 h2
  have hm1 : min (45*ε) 1 ≤ 45*ε := min_le_left _ _
  have hm2 : min (45*ε) 1 ≤ 1 := min_le_right _ _
  have hfx : calculateAdaptiveScale x = 1 + (100 - x) / 90 * 2 := by
    simp only [calculateAdaptiveScale]
    rw [if_neg (by linarith), if_neg (by linarith), if_neg (by linarith),
      if_neg (by linarith), if_pos h2, max_eq_left (by linarith)]
  rw [hfx, calculateAdaptiveScale_hundred, abs_lt]
  constructor <;> linarith

lemma leftCont_modal_one : LeftContAt modalAdaptiveScale 1 := by
  intro ε hε
  refine ⟨min (ε/20) (1/2), lt_min (by positivity) (by norm_num), ?_⟩
  intro x h1 h2
  have hm1 : min (ε/20) (1/2) ≤ ε/20 := min_le_left _ _
  have hm2 : min (ε/20) (1/2) ≤ 1/2 := min_le_right _ _
  have hfx : modalAdaptiveScale x = 10 + (1 - x) * 20 := by
    simp only [modalAdaptiveScale]
    rw [if_neg (by linarith), if_neg (by linarith), if_pos h2,
      max_eq_left (by linarith)]
  rw [hfx, modalAdaptiveScale_one, abs_lt]
  constructor <;> linarith

lemma leftCont_modal_ten : LeftContAt modalAdaptiveScale 10 := by
  intro ε hε
  refine ⟨min (9*ε/8) 1, lt_min (by positivity) (by norm_num), ?_⟩
  intro x h1 h2
  have hm1 : min (9*ε/8) 1 ≤ 9*ε/8 := min_le_left _ _
  have hm2 : min (9*ε/8) 1 ≤ 1 := min_le_right _ _
  have hfx : modalAdaptiveScale x = 2 + (10 - x) / 9 * 8 := by
    simp only [modalAdaptiveScale]
    rw [if_neg (by linarith), if_neg (by linarith), if_neg (by linarith),
      if_pos h2, max_eq_left (by linarith)]
  rw [hfx, modalAdaptiveScale_ten, abs_lt]
  constructor <;> linarith

lemma leftCont_modal_hundred : LeftContAt modalAdaptiveScale 100 := by
  intro ε hε
  refine ⟨min (75*ε) 1, lt_min (by positivity) (by norm_num), ?_⟩
  intro x h1 h2
  have hm1 : min (75*ε) 1 ≤ 75*ε := min_le_left _ _
  have hm2 : min (75*ε) 1 ≤ 1 := min_le_right _ _
  have hfx : modalAdaptiveScale x = 8/10 + (100 - x) / 90 * (12/10) := by
    simp only [modalAdaptiveScale]
    rw [if_neg (by linarith), if_neg (by linarith), if_neg (by linarith),
      if_neg (by linarith), if_pos h2, max_eq_left (by linarith)]
  rw [hfx, modalAdaptiveScale_hundred, abs_lt]
  constructor <;> linarith

/-- C3 (counterexample): the claim asserts continuity at the bucket
boundary `0.1`, but both scale variants are constant on the left of
`0.1` (50 resp. 30) while taking the strictly smaller values `46.5`
resp. `28` at `0.1` — a discontinuous downward jump. -/
theorem scale_discontinuous_at_tenth :
    (LeftValEq calculateAdaptiveScale (1/10) 50 ∧
      calculateAdaptiveScale (1/10) = 93/2 ∧ (93/2 : ℚ) ≠ 50) ∧
    (LeftValEq modalAdaptiveScale (1/10) 30 ∧
      modalAdaptiveScale (1/10) = 28 ∧ (28 : ℚ) ≠ 30) := by
  refine ⟨⟨⟨1/20, by norm_num, ?_⟩, ?_, by norm_num⟩,
    ⟨⟨1/20, by norm_num, ?_⟩, ?_, by norm_num⟩⟩
  · intro x h1 h2
    simp only [calculateAdaptiveScale]
    rw [if_neg (by linarith), if_pos h2, max_eq_left (by norm_num)]
  · simp only [calculateAdaptiveScale]; norm_num
  · intro x h1 h2
    simp only [modalAdaptiveScale]
    rw [if_neg (by linarith), if_pos h2, max_eq_left (by norm_num)]
  · simp only [modalAdaptiveScale]; norm_num

/-- C3 (amended): for `maxDimension > 0` both adaptive-scale variants
are non-increasing, and they are continuous (from the left) at the
bucket boundaries `1.0`, `10.0` and `100.0`; at the boundary `0.1` both
variants have a discontinuous downward jump (see the counterexample). -/
theorem adaptiveScale_monotone_and_boundary_continuity :
    (∀ x y : ℚ, 0 < x → x ≤ y →
        calculateAdaptiveScale y ≤ calculateAdaptiveScale x ∧
        modalAdaptiveScale y ≤ modalAdaptiveScale x) ∧
    (LeftContAt calculateAdaptiveScale 1 ∧ LeftContAt calculateAdaptiveScale 10 ∧
      LeftContAt calculateAdaptiveScale 100) ∧
    (LeftContAt modalAdaptiveScale 1 ∧ LeftContAt modalAdaptiveScale 10 ∧
      LeftContAt modalAdaptiveScale 100) :=
  ⟨fun _ _ hx hxy => ⟨calculateAdaptiveScale_antitone hx hxy,
      modalAdaptiveScale_antitone hx hxy⟩,
    ⟨leftCont_calc_one, leftCont_calc_ten, leftCont_calc_hundred⟩,
    ⟨leftCont_modal_one, leftCont_modal_ten, leftCont_modal_hundred⟩⟩

/-- Witness for the amended C3 theorem at the concrete pair `2 ≤ 5`. -/
theorem adaptiveScale_monotone_witness :
    calculateAdaptiveScale 5 ≤ calculateAdaptiveScale 2 ∧
    modalAdaptiveScale 5 ≤ modalAdaptiveScale 2 :=
  adaptiveScale_monotone_and_boundary_continuity.1 2 5 (by norm_num) (by norm_num)

/-- C8: both adaptive-scale variants are total functions; a
non-positive `maxDimension` returns the fixed fallback (`3.0` still
variant, `2.0` interactive variant), and every result is at least the
variant's positive floor (`0.5` resp. `0.3`), hence strictly positive. -/
theorem adaptiveScale_total_and_floored :
    (∀ x : ℚ, x ≤ 0 → calculateAdaptiveScale x = 3 ∧ modalAdaptiveScale x = 2) ∧
    (∀ x : ℚ, 1/2 ≤ calculateAdaptiveScale x ∧ 3/10 ≤ modalAdaptiveScale x) := by
  constructor
  · intro x hx
    constructor <;> · simp only [calculateAdaptiveScale, modalAdaptiveScale]
                      rw [if_pos hx]
  · intro x
    constructor
    · by_cases hx : x ≤ 0
      · simp only [calculateAdaptiveScale]; rw [if_pos hx]; norm_num
      · simp only [calculateAdaptiveScale]; rw [if_neg hx]
        exact le_max_right _ _
    · by_cases hx : x ≤ 0
      · simp only [modalAdaptiveScale]; rw [if_pos hx]; norm_num
      · simp only [modalAdaptiveScale]; rw [if_neg hx]
        exact le_max_right _ _

/-- Witness for C8 at concrete inputs `-1`, `0` and `1/5`. -/
theorem adaptiveScale_total_witness :
    calculateAdaptiveScale (-1) = 3 ∧ modalAdaptiveScale 0 = 2 ∧
    1/2 ≤ calculateAdaptiveScale (1/5) ∧ 3/10 ≤ modalAdaptiveScale (1/5) :=
  ⟨(adaptiveScale_total_and_floored.1 (-1) (by norm_num)).1,
    (adaptiveScale_total_and_floored.1 0 (by norm_num)).2,
    (adaptiveScale_total_and_floored.2 (1/5)).1,
    (adaptiveScale_total_and_floored.2 (1/5)).2⟩

lemma rd_bound {l : List Nat} {off w : Nat} (h : rd l off = some w) :
    off + 4 ≤ l.length := by
  by_contra hc
  simp [rd, hc] at h

lemma rd_some {l : List Nat} {off : Nat} (h : off + 4 ≤ l.length) :
    rd l off = some (l.getD off 0 + 256 * (l.getD (off+1) 0 +
      256 * (l.getD (off+2) 0 + 256 * l.getD (off+3) 0))) := by
  simp [rd, h]

lemma parseBinaryFaces_ok (l : List Nat) (k : Nat) :
    ∀ (off : Nat) (geo : Geometry Nat),
      (k = 0 ∨ off + 48 + 50 * (k - 1) ≤ l.length) →
      ∃ g, parseBinaryFaces l k off geo = .ok g ∧
        g.positions.length = geo.positions.length + 3 * k ∧
        g.normals.length = geo.normals.length + 3 * k := by
  induction k with
  | zero => exact fun off geo _ => ⟨geo, rfl, by simp, by simp⟩
  | succ n ih =>
    intro off geo h
    have hlen : off + 48 ≤ l.length := by omega
    simp only [parseBinaryFaces]
    split
    · rename_i n1 n2 n3 a1 a2 a3 b1 b2 b3 c1 c2 c3 h1 h2 h3 h4 h5 h6 h7 h8 h9
        h10 h11 h12
      obtain ⟨g, hg, hp, hn⟩ := ih (off + 50)
        { positions := geo.positions ++ [(a1,a2,a3), (b1,b2,b3), (c1,c2,c3)],
          normals := geo.normals ++ [(n1,n2,n3), (n1,n2,n3), (n1,n2,n3)] }
        (by omega)
      refine ⟨g, hg, ?_, ?_⟩ <;>
        simp only [List.length_append, List.length_cons, List.length_nil]
          at hp hn ⊢ <;> omega
    · rename_i hno
      exact (hno _ _ _ _ _ _ _ _ _ _ _ _
        (rd_some (by omega)) (rd_some (by omega)) (rd_some (by omega))
        (rd_some (by omega)) (rd_some (by omega)) (rd_some (by omega))
        (rd_some (by omega)) (rd_some (by omega)) (rd_some (by omega))
        (rd_some (by omega)) (rd_some (by omega)) (rd_some (by omega))).elim

lemma parseBinaryFaces_err (l : List Nat) (k : Nat) :
    ∀ (off : Nat) (geo : Geometry Nat), 1 ≤ k →
      l.length < off + 48 + 50 * (k - 1) →
      parseBinaryFaces l k off geo = .error .outOfBounds := by
  induction k with
  | zero => intro off geo h1 _; exact absurd h1 (by omega)
  | succ n ih =>
    intro off geo _ hlen
    simp only [parseBinaryFaces]
    split
    · rename_i n1 n2 n3 a1 a2 a3 b1 b2 b3 c1 c2 c3 h1 h2 h3 h4 h5 h6 h7 h8 h9
        h10 h11 h12
      have hb : off + 44 + 4 ≤ l.length := rd_bound h12
      have hn1 : 1 ≤ n := by omega
      exact ih (off + 50) _ hn1 (by omega)
    · rfl

lemma parseBinary_err_iff (l : List Nat) :
    parseBinary l = .error .outOfBounds ↔
      l.length < 84 ∨ (1 ≤ faceCountOf l ∧ l.length < 82 + 50 * faceCountOf l) := by
  unfold parseBinary faceCountOf
  cases h : rd l 80 with
  | none =>
    have hlt : l.length < 84 := by
      by_contra hc
      rw [rd_some (by omega)] at h
      cases h
    simp [hlt]
  | some N =>
    have h84 : 84 ≤ l.length := by have := rd_bound h; omega
    simp only [Option.getD_some]
    rcases Nat.eq_zero_or_pos N with rfl | hN
    · constructor
      · intro hcon
        exact absurd hcon (by simp [parseBinaryFaces])
      · intro hr
        exfalso
        rcases hr with hr | ⟨hr, _⟩ <;> omega
    · by_cases hlen : l.length < 82 + 50 * N
      · rw [parseBinaryFaces_err l N 84 ⟨[], []⟩ hN (by omega)]
        constructor
        · intro _; exact Or.inr ⟨hN, hlen⟩
        · intro _; rfl
      · obtain ⟨g, hg, _, _⟩ := parseBinaryFaces_ok l N 84 ⟨[], []⟩
          (Or.inr (by omega))
        rw [hg]
        constructor
        · intro hcon; exact absurd hcon (by simp)
        · intro hr; exfalso; rcases hr with hr | ⟨h1, h2⟩ <;> omega

set_option maxRecDepth 10000 in
/-- C2 (counterexample): `bin132` is classified binary, declares one
triangle, and is 132 < 134 = 84 + 50·1 bytes long, yet `parse`
succeeds, because the final record's 2 attribute bytes are never
read. -/
theorem short_binary_buffer_parses :
    isASCII bin132 = false ∧ bin132.length = 132 ∧ faceCountOf bin132 = 1 ∧
      (132 < 84 + 50 * 1) ∧
      parseSTL bin132 =
        .ok (.inr ⟨[(0,0,0), (0,0,0), (0,0,0)], [(0,0,0), (0,0,0), (0,0,0)]⟩) :=
  ⟨by decide, by decide, by decide, by decide, by decide⟩

/-- C2 (amended): a buffer the parser classifies as binary fails to
parse — with the out-of-bounds `DataView` read that the spec calls
`TruncatedError` — exactly when it is shorter than 84 bytes (the
header-only case) or shorter than `82 + 50·N` bytes for its declared
triangle count `N ≥ 1`; the final record's 2 attribute bytes are never
read, so lengths `84 + 50·N - 2` and `84 + 50·N - 1` succeed even
though they are below `84 + 50·N`. -/
theorem parseSTL_truncation (l : List Nat) (hbin : isASCII l = false) :
    parseSTL l = .error .outOfBounds ↔
      l.length < 84 ∨ (1 ≤ faceCountOf l ∧ l.length < 82 + 50 * faceCountOf l) := by
  unfold parseSTL
  rw [hbin, ← parseBinary_err_iff]
  cases parseBinary l with
  | ok g => simp [Except.map]
  | error e => cases e; simp [Except.map]

/-- Witness for C2 (amended) at the concrete 12-byte header-only
buffer of the spec's scenario A. -/
theorem parseSTL_truncation_witness :
    parseSTL (List.replicate 12 0) = .error .outOfBounds :=
  (parseSTL_truncation (List.replicate 12 0) (by decide)).mpr
    (Or.inl (by decide))

lemma ascii_fold_counts (ls : List (List Char)) :
    ∀ (cur : Option (List Char × List Char × List Char))
      (geo : Geometry (List Char)),
      ∃ p q,
        ((ls.foldl (fun st l => parseASCIIStep st.1 st.2 l) (cur, geo)).2).positions.length
            = geo.positions.length + p ∧
        ((ls.foldl (fun st l => parseASCIIStep st.1 st.2 l) (cur, geo)).2).normals.length
            = geo.normals.length + q ∧
        q ≤ p ∧ (cur.isSome = true → p = q) ∧
        (noEarlyLines ls = true → p = q) := by
  induction ls with
  | nil => exact fun cur geo => ⟨0, 0, by simp, by simp, le_rfl, fun _ => rfl,
      fun _ => rfl⟩
  | cons l ls ih =>
    intro cur geo
    rw [List.foldl_cons]
    by_cases h1 : startsWithTok "facet normal".toList (trimLine l) = true
    · have hstep : parseASCIIStep cur geo l =
          (some (getPart (wordsOf (trimLine l)) 2, getPart (wordsOf (trimLine l)) 3,
            getPart (wordsOf (trimLine l)) 4), geo) := by
        simp only [parseASCIIStep]
        rw [if_pos h1]
      rw [hstep]
      obtain ⟨p, q, hp, hq, hle, hsome, _⟩ := ih
        (some (getPart (wordsOf (trimLine l)) 2, getPart (wordsOf (trimLine l)) 3,
          getPart (wordsOf (trimLine l)) 4)) geo
      exact ⟨p, q, hp, hq, hle, fun _ => hsome rfl, fun _ => hsome rfl⟩
    · by_cases h2 : startsWithTok "vertex".toList (trimLine l) = true
      · have hne : noEarlyLines (l :: ls) = false := by
          simp only [noEarlyLines]
          rw [if_neg h1, if_pos h2]
        cases cur with
        | some n =>
          have hstep : parseASCIIStep (some n) geo l =
              (some n,
                { positions := geo.positions ++ [(getPart (wordsOf (trimLine l)) 1,
                    getPart (wordsOf (trimLine l)) 2, getPart (wordsOf (trimLine l)) 3)],
                  normals := geo.normals ++ [n] }) := by
            simp only [parseASCIIStep]
            rw [if_neg h1, if_pos h2]
          rw [hstep]
          obtain ⟨p, q, hp, hq, _, hsome, _⟩ := ih (some n)
            { positions := geo.positions ++ [(getPart (wordsOf (trimLine l)) 1,
                getPart (wordsOf (trimLine l)) 2, getPart (wordsOf (trimLine l)) 3)],
              normals := geo.normals ++ [n] }
          have hpq : p = q := hsome rfl
          refine ⟨p + 1, q + 1, ?_, ?_, by omega, ?_, ?_⟩
          · rw [hp]
            simp only [List.length_append, List.length_cons, List.length_nil]
            omega
          · rw [hq]
            simp only [List.length_append, List.length_cons, List.length_nil]
            omega
          · intro _; omega
          · intro hc
            rw [hne] at hc
            cases hc
        | none =>
          have hstep : parseASCIIStep none geo l =
              (none,
                { positions := geo.positions ++ [(getPart (wordsOf (trimLine l)) 1,
                    getPart (wordsOf (trimLine l)) 2, getPart (wordsOf (trimLine l)) 3)],
                  normals := geo.normals }) := by
            simp only [parseASCIIStep]
            rw [if_neg h1, if_pos h2]
          rw [hstep]
          obtain ⟨p, q, hp, hq, hle, _, _⟩ := ih none
            { positions := geo.positions ++ [(getPart (wordsOf (trimLine l)) 1,
                getPart (wordsOf (trimLine l)) 2, getPart (wordsOf (trimLine l)) 3)],
              normals := geo.normals }
          refine ⟨p + 1, q, ?_, ?_, by omega, ?_, ?_⟩
          · rw [hp]
            simp only [List.length_append, List.length_cons, List.length_nil]
            omega
          · exact hq
          · intro hc; cases hc
          · intro hc
            rw [hne] at hc
            cases hc
      · have hstep : parseASCIIStep cur geo l = (cur, geo) := by
          simp only [parseASCIIStep]
          rw [if_neg h1, if_neg h2]
        have hne : noEarlyLines (l :: ls) = noEarlyLines ls := by
          simp only [noEarlyLines]
          rw [if_neg h1, if_neg h2]
        rw [hstep]
        obtain ⟨p, q, hp, hq, hle, hsome, hearly⟩ := ih cur geo
        exact ⟨p, q, hp, hq, hle, hsome, fun hc => hearly (by rw [← hne]; exact hc)⟩

set_option maxRecDepth 10000 in
/-- C1 (counterexample): an ASCII input whose `vertex` lines precede
any `facet normal` line parses to 3 positions but 0 normals — the
claimed `len(normals) = len(positions)` invariant fails on the ASCII
path. -/
theorem ascii_early_vertex_counts :
    parseSTL earlyVertexInput =
        .ok (.inl (parseASCII (earlyVertexInput.map byteToChar))) ∧
      (parseASCII (earlyVertexInput.map byteToChar)).positions.length = 3 ∧
      (parseASCII (earlyVertexInput.map byteToChar)).normals.length = 0 :=
  ⟨by decide, by decide, by decide⟩

/-- C1 (amended): for every binary parse that succeeds the geometry has
exactly `3·N` positions and as many normals as positions; on the ASCII
path the number of normals never exceeds the number of positions, and
equals it provided no `vertex` line precedes the first `facet normal`
line (a `vertex` seen before any normal stores a position without a
normal). -/
theorem parse_geometry_counts :
    (∀ (l : List Nat) (N : Nat) (g : Geometry Nat), rd l 80 = some N →
        parseBinary l = .ok g →
        g.positions.length = 3 * N ∧ g.normals.length = g.positions.length) ∧
    (∀ s : List Char,
        (parseASCII s).normals.length ≤ (parseASCII s).positions.length ∧
        (noEarlyVertex s = true →
          (parseASCII s).normals.length = (parseASCII s).positions.length)) := by
  constructor
  · intro l N g hN hok
    unfold parseBinary at hok
    rw [hN] at hok
    replace hok : parseBinaryFaces l N 84 ⟨[], []⟩ = Except.ok g := hok
    by_cases hc : N = 0 ∨ 84 + 48 + 50 * (N - 1) ≤ l.length
    · obtain ⟨g', hg', hp, hn⟩ := parseBinaryFaces_ok l N 84 ⟨[], []⟩ hc
      rw [hg'] at hok
      injection hok with hgg
      subst hgg
      simp only [List.length_nil, Nat.zero_add] at hp hn
      omega
    · push_neg at hc
      rw [parseBinaryFaces_err l N 84 ⟨[], []⟩ (by omega) (by omega)] at hok
      cases hok
  · intro s
    obtain ⟨p, q, hp, hq, hle, _, hearly⟩ :=
      ascii_fold_counts (splitOnNl s) none ⟨[], []⟩
    unfold parseASCII
    rw [hp, hq]
    simp only [List.length_nil, Nat.zero_add]
    exact ⟨hle, fun h => (hearly h).symm⟩

set_option maxRecDepth 10000 in
/-- Witness for C1 (amended): the complete one-triangle binary buffer
`bin134` and the facet-first ASCII input of scenario B. -/
theorem parse_geometry_counts_witness :
    ((parseBinary bin134 = .ok
        (⟨[(0,0,0), (0,0,0), (0,0,0)], [(0,0,0), (0,0,0), (0,0,0)]⟩ : Geometry Nat)) →
      (⟨[(0,0,0), (0,0,0), (0,0,0)], [(0,0,0), (0,0,0), (0,0,0)]⟩ : Geometry Nat).positions.length = 3 * 1) ∧
    (parseASCII facetFirstInput).normals.length =
      (parseASCII facetFirstInput).positions.length :=
  ⟨fun hok => (parse_geometry_counts.1 bin134 1
      (⟨[(0,0,0), (0,0,0), (0,0,0)], [(0,0,0), (0,0,0), (0,0,0)]⟩ : Geometry Nat)
      (by decide) hok).1,
    (parse_geometry_counts.2 facetFirstInput).2 (by decide)⟩

lemma startsWithTok_eq (p : List Char) :
    ∀ l, startsWithTok p l = decide (l.take p.length = p) := by
  induction p with
  | nil => intro l; simp [startsWithTok]
  | cons c cs ih =>
    intro l
    cases l with
    | nil => simp [startsWithTok]
    | cons d ds =>
      simp only [startsWithTok, List.length_cons, List.take_succ_cons]
      rw [Bool.eq_iff_iff, Bool.and_eq_true, beq_iff_eq, ih]
      simp only [decide_eq_true_eq, List.cons.injEq]
      constructor
      · rintro ⟨hcd, ht⟩
        exact ⟨hcd.symm, ht⟩
      · rintro ⟨hdc, ht⟩
        exact ⟨hdc.symm, ht⟩

lemma containsTok_eq_any (p : List Char) :
    ∀ l, containsTok p l =
      (List.range (l.length + 1)).any fun i => startsWithTok p (l.drop i) := by
  intro l
  induction l with
  | nil => simp [containsTok, List.range_succ, List.range_zero]
  | cons c cs ih =>
    simp only [containsTok, List.length_cons]
    rw [List.range_succ_eq_map]
    simp only [List.any_cons, List.any_map, Function.comp_def,
      Nat.succ_eq_add_one, List.drop_succ_cons, List.drop_zero, ih]

/-- C9: the parser classifies an input as ASCII exactly when the text
decoding of its first 80 bytes contains the token `solid`
case-insensitively; the parse path is dispatched by this rule alone —
ASCII inputs go through the line parser, everything else through the
binary record parser. -/
theorem stl_classification :
    (∀ data : List Nat, isASCII data = specAsciiRule data) ∧
    (∀ data : List Nat,
      parseSTL data = if specAsciiRule data then
          .ok (.inl (parseASCII (data.map byteToChar)))
        else (parseBinary data).map .inr) := by
  have key : ∀ data : List Nat, isASCII data = specAsciiRule data := by
    intro data
    have point : ∀ (h : List Char) (i : Nat),
        startsWithTok "solid".toList ((h.map charToLower).drop i) =
          decide (((h.drop i).take 5).map charToLower = "solid".toList) := by
      intro h i
      rw [startsWithTok_eq, ← List.map_drop, ← List.map_take]
      rfl
    simp only [isASCII, specAsciiRule, containsTok_eq_any, List.length_map,
      point]
  refine ⟨key, fun data => ?_⟩
  simp only [parseSTL, key]

lemma getItem_cons (e : String × CacheData) (rest : Store) (k : String) :
    getItem (e :: rest) k = if e.1 == k then some e.2 else getItem rest k := by
  by_cases h : e.1 == k <;> simp [getItem, List.find?, h]

lemma getItem_setItem_self (st : Store) (k : String) (v : CacheData) :
    getItem (setItem st k v) k = some v := by
  induction st with
  | nil => simp [setItem, getItem, List.find?]
  | cons e rest ih =>
    by_cases h : e.1 == k
    · simp [setItem, h, getItem, List.find?]
    · simp only [setItem, h]
      rw [if_neg (by simp [h]), getItem_cons, if_neg (by simp [h])]
      exact ih

lemma getItem_removeItem_self (st : Store) (k : String) :
    getItem (removeItem st k) k = none := by
  induction st with
  | nil => simp [removeItem, getItem]
  | cons e rest ih =>
    simp only [removeItem, List.filter_cons] at ih ⊢
    by_cases he : e.1 == k
    · rw [he]
      simpa using ih
    · rw [show (!(e.1 == k)) = true from by simp [he], if_pos rfl,
        getItem_cons, if_neg (by simp [he])]
      exact ih

lemma getItem_removeItem_other (st : Store) (k kq : String) (h : kq ≠ k) :
    getItem (removeItem st k) kq = getItem st kq := by
  induction st with
  | nil => simp [removeItem, getItem]
  | cons e rest ih =>
    simp only [removeItem, List.filter_cons] at ih ⊢
    by_cases he : e.1 == k
    · have hek : e.1 = k := by simpa using he
      have hq : (e.1 == kq) = false := by
        simp only [beq_eq_false_iff_ne, hek]
        exact fun hc => h hc.symm
      rw [he]
      simp only [Bool.not_true, Bool.false_eq_true, if_false]
      rw [ih, getItem_cons, hq]
      simp
    · rw [show (!(e.1 == k)) = true from by simp [he], if_pos rfl,
        getItem_cons, getItem_cons, ih]

/-- C4 (counterexample): an entry written at timestamp 0 is rejected by
the JS-falsiness guard `!cacheData.timestamp` on the very next
millisecond, well inside the 7-day TTL: the lookup returns nothing and
deletes the entry instead of returning the stored image. -/
theorem cache_zero_timestamp :
    loadFromCache (saveToCache [] "k" "img" "u" none 0) "k" 1 = (none, []) ∧
    (1 : ℤ) < 0 + cacheExpiryMs := by
  constructor
  · rfl
  · decide

/-- C4 (amended): for every cache entry written at a nonzero time `t`
with a nonempty image, a lookup at any `tq < t + 7 days` returns
exactly the stored image and leaves the store unchanged, and a lookup
at any `tq ≥ t + 7 days` returns nothing and removes the entry from
the store. -/
theorem cache_ttl (st : Store) (key img url : String) (opts : Option String)
    (t tq : ℤ) (ht : t ≠ 0) (himg : img ≠ "") :
    (tq < t + cacheExpiryMs →
      loadFromCache (saveToCache st key img url opts t) key tq =
        (some img, saveToCache st key img url opts t)) ∧
    (t + cacheExpiryMs ≤ tq →
      (loadFromCache (saveToCache st key img url opts t) key tq).1 = none ∧
      getItem (loadFromCache (saveToCache st key img url opts t) key tq).2 key
        = none) := by
  have hget : getItem (saveToCache st key img url opts t) key =
      some ⟨img, t, url, opts⟩ := getItem_setItem_self st key _
  have hvalid : ∀ now : ℤ, isCacheValid ⟨img, t, url, opts⟩ now =
      decide (now - t < cacheExpiryMs) := by
    intro now
    have h1 : (t == (0 : ℤ)) = false := by simpa using ht
    have h2 : (img == "") = false := by simpa using himg
    simp [isCacheValid, h1, h2]
  constructor
  · intro hfresh
    simp only [loadFromCache, hget, hvalid]
    rw [if_pos (by simp only [decide_eq_true_eq]; linarith)]
  · intro hstale
    simp only [loadFromCache, hget, hvalid]
    rw [if_neg (by simp only [decide_eq_true_eq]; intro hc; linarith)]
    exact ⟨rfl, getItem_removeItem_self _ _⟩

/-- Witness for C4 (amended) at a concrete write time 5, lookups at
time 6 (fresh) and at `5 + 7 days` (stale). -/
theorem cache_ttl_witness :
    loadFromCache (saveToCache [] "k" "i" "u" none 5) "k" 6 =
      (some "i", saveToCache [] "k" "i" "u" none 5) ∧
    (loadFromCache (saveToCache [] "k" "i" "u" none 5) "k"
      (5 + cacheExpiryMs)).1 = none :=
  ⟨(cache_ttl [] "k" "i" "u" none 5 6 (by decide) (by decide)).1 (by decide),
    ((cache_ttl [] "k" "i" "u" none 5 (5 + cacheExpiryMs) (by decide)
      (by decide)).2 (by omega)).1⟩

lemma hookStep_inv (url key : String) (opts : Option String) (s : HookState)
    (ev : HookEv)
    (h : s.started = s.finished + (if s.isGenerating then 1 else 0))
    (hev : ∀ snap, ev = .call snap → snap = s.isGenerating) :
    (hookStep url key opts s ev).started =
      (hookStep url key opts s ev).finished +
        (if (hookStep url key opts s ev).isGenerating then 1 else 0) := by
  cases ev with
  | call snap =>
    rw [show (HookEv.call snap) = .call s.isGenerating from by
      rw [hev snap rfl]]
    simp only [hookStep, generateStart]
    split
    · exact h
    · rename_i hg
      have hgen : s.isGenerating = false := by
        revert hg
        cases s.isGenerating <;> simp
      rw [hgen] at h
      simp at h
      simp
      omega
  | finish res now =>
    simp only [hookStep, generateFinish]
    split
    · exact h
    · rename_i hg
      have hgt : s.isGenerating = true := by
        revert hg
        cases s.isGenerating <;> simp
      rw [hgt] at h
      simp at h
      cases res with
      | ok d =>
        by_cases hd : (!(d == "") && decide (100 < d.length)) = true
        · simp only [hd, if_true]
          simp
          omega
        · have hdf : (!(d == "") && decide (100 < d.length)) = false := by
            simpa using hd
          simp only [hdf, Bool.false_eq_true, if_false]
          simp
          omega
      | error msg =>
        simp
        omega

lemma hookRun_inv (url key : String) (opts : Option String)
    (evs : List HookEv) :
    ∀ s : HookState,
      s.started = s.finished + (if s.isGenerating then 1 else 0) →
      freshReads url key opts s evs = true →
      (hookRun url key opts s evs).started =
        (hookRun url key opts s evs).finished +
          (if (hookRun url key opts s evs).isGenerating then 1 else 0) := by
  induction evs with
  | nil => exact fun s h _ => h
  | cons ev evs ih =>
    intro s h hf
    cases ev with
    | call snap =>
      simp only [freshReads, Bool.and_eq_true, beq_iff_eq] at hf
      exact ih _ (hookStep_inv url key opts s _ h
        (fun sn heq => by injection heq with h2; rw [← h2]; exact hf.1)) hf.2
    | finish res now =>
      simp only [freshReads] at hf
      exact ih _ (hookStep_inv url key opts s _ h (fun sn heq => by cases heq))
        hf

/-- C6 (counterexample): two `generatePreview` calls in immediate
succession (spec §8 scenario D) run in the same render's closure, so
both read the stale captured `isGenerating = false` although the
committed state is already in-flight after the first call; both pass
the `isGenerating || !modelUrl` guard, and two independent render
sessions start with neither resolved. -/
theorem same_tick_calls_start_two_sessions :
    (hookRun "u" "k" none (initHookState []) [.call false]).isGenerating
        = true ∧
    (hookRun "u" "k" none (initHookState [])
        [.call false, .call false]).started = 2 ∧
    (hookRun "u" "k" none (initHookState [])
        [.call false, .call false]).finished = 0 :=
  ⟨by decide, by decide, by decide⟩

/-- C6 (amended): the per-instance `isGenerating` guard is single-flight
only for requests that observe the committed in-flight state: a call
whose closure captured the committed `isGenerating = true` is a no-op
and starts no second render session, and along every event trace
obeying the committed-read discipline at most one render session is
ever unresolved.  A second call issued in immediate succession within
the same render's closure reads the stale flag and starts a second
independent render session (see the counterexample). -/
theorem preview_single_flight_committed :
    (∀ (url key : String) (opts : Option String) (s : HookState),
        s.isGenerating = true →
        hookStep url key opts s (.call s.isGenerating) = s) ∧
    (∀ (url key : String) (opts : Option String) (st : Store)
        (evs : List HookEv),
        freshReads url key opts (initHookState st) evs = true →
        (hookRun url key opts (initHookState st) evs).started ≤
          (hookRun url key opts (initHookState st) evs).finished + 1) := by
  constructor
  · intro url key opts s h
    rw [h]
    simp [hookStep, generateStart]
  · intro url key opts st evs hf
    have h := hookRun_inv url key opts evs (initHookState st)
      (by simp [initHookState]) hf
    split at h <;> omega

/-- Witness for C6 (amended): a committed-read call on a concrete
in-flight state is a no-op, and a concrete committed-read trace (call,
resolve, call again) keeps at most one unresolved session. -/
theorem preview_single_flight_committed_witness :
    hookStep "u" "k" none ⟨none, true, none, [], 1, 0⟩ (.call true) =
      ⟨none, true, none, [], 1, 0⟩ ∧
    (hookRun "u" "k" none (initHookState [])
        [.call false, .finish (.error "boom") 5, .call false]).started ≤
      (hookRun "u" "k" none (initHookState [])
        [.call false, .finish (.error "boom") 5, .call false]).finished + 1 :=
  ⟨preview_single_flight_committed.1 "u" "k" none
      ⟨none, true, none, [], 1, 0⟩ rfl,
    preview_single_flight_committed.2 "u" "k" none []
      [.call false, .finish (.error "boom") 5, .call false] (by decide)⟩

/-- C7: a preview request that fails at any stage — the awaited
generation rejecting (fetch, parse or render error) or the produced
data URL failing validation — surfaces the error message to the caller
and leaves the cache store untouched; the renderer's own sanity check
turns an empty or short image into a typed error. -/
theorem preview_failure_leaves_cache :
    (∀ (url key : String) (opts : Option String) (msg : String) (now : ℤ)
        (s : HookState), s.isGenerating = true →
        (generateFinish url key opts (.error msg) now s).store = s.store ∧
        (generateFinish url key opts (.error msg) now s).error = some msg ∧
        (generateFinish url key opts (.error msg) now s).previewUrl =
          s.previewUrl) ∧
    (∀ (url key : String) (opts : Option String) (dataUrl : String) (now : ℤ)
        (s : HookState), s.isGenerating = true → dataUrl.length ≤ 100 →
        (generateFinish url key opts (.ok dataUrl) now s).store = s.store ∧
        (generateFinish url key opts (.ok dataUrl) now s).error =
          some "Generated preview appears to be invalid or too short") ∧
    (∀ dataURL : String, dataURL.length < 100 →
        generatorValidate dataURL = .error "Generated preview is invalid") := by
  refine ⟨?_, ?_, ?_⟩
  · intro url key opts msg now s h
    simp [generateFinish, h]
  · intro url key opts dataUrl now s h hlen
    have hd : ¬ (100 < dataUrl.length) := by omega
    simp [generateFinish, h, hd]
  · intro dataURL hlen
    simp [generatorValidate, hlen]

/-- Witness for C7 at a concrete rejected render, a concrete too-short
data URL, and the empty image. -/
theorem preview_failure_witness :
    (generateFinish "u" "k" none (.error "boom") 5
        ⟨none, true, none, [], 1, 0⟩).store = [] ∧
    (generateFinish "u" "k" none (.ok "short") 5
        ⟨none, true, none, [], 1, 0⟩).error =
      some "Generated preview appears to be invalid or too short" ∧
    generatorValidate "" = .error "Generated preview is invalid" :=
  ⟨(preview_failure_leaves_cache.1 "u" "k" none "boom" 5
      ⟨none, true, none, [], 1, 0⟩ rfl).1,
    (preview_failure_leaves_cache.2.1 "u" "k" none "short" 5
      ⟨none, true, none, [], 1, 0⟩ rfl (by decide)).2,
    preview_failure_leaves_cache.2.2 "" (by decide)⟩

/-- C10: a caller-initiated cache clear for one preview slot removes
exactly the entry stored under the slot's own derived cache key and
resets the published preview to absent; entries under every other key,
and the rest of the hook state, are untouched. -/
theorem clear_cache_frame :
    ∀ (url : List Char) (custom : Option (List Char)) (opts : Option JObj)
      (s : HookState) (kq : String),
      (clearCache (hookCacheKey url custom opts) s).previewUrl = none ∧
      getItem (clearCache (hookCacheKey url custom opts) s).store
        (hookCacheKey url custom opts) = none ∧
      (kq ≠ hookCacheKey url custom opts →
        getItem (clearCache (hookCacheKey url custom opts) s).store kq =
          getItem s.store kq) ∧
      (clearCache (hookCacheKey url custom opts) s).isGenerating =
        s.isGenerating ∧
      (clearCache (hookCacheKey url custom opts) s).error = s.error := by
  intro url custom opts s kq
  refine ⟨rfl, getItem_removeItem_self _ _, ?_, rfl, rfl⟩
  intro h
  exact getItem_removeItem_other s.store (hookCacheKey url custom opts) kq h

set_option maxRecDepth 40000 in
/-- Witness for C10: clearing one slot leaves an entry under a
different key readable. -/
theorem clear_cache_frame_witness :
    getItem (clearCache (hookCacheKey "u".toList none none)
        (initHookState [("other", ⟨"d", 1, "u", none⟩)])).store "other" =
      getItem (initHookState [("other", ⟨"d", 1, "u", none⟩)]).store "other" :=
  (clear_cache_frame "u".toList none none
    (initHookState [("other", ⟨"d", 1, "u", none⟩)]) "other").2.2.1 (by decide)

set_option maxRecDepth 4000 in
lemma untbl_tbl : ∀ x, x < 64 → untbl (tbl x) = x := by decide

set_option maxRecDepth 4000 in
lemma tbl_ne_pad : ∀ x, x < 64 → tbl x ≠ '=' := by decide

lemma b64_roundtrip : ∀ (n : Nat) (l : List Nat), l.length ≤ n →
    (∀ b ∈ l, b < 256) → b64Decode (b64Encode l) = l := by
  intro n
  induction n with
  | zero =>
    intro l hl _
    cases l with
    | nil => rfl
    | cons a as => simp at hl
  | succ n ih =>
    intro l hl hb
    match l with
    | [] => rfl
    | [a] =>
      have ha : a < 256 := hb a (by simp)
      simp only [b64Encode, b64Decode, eq_self_iff_true, if_true]
      rw [untbl_tbl _ (by omega), untbl_tbl _ (by omega)]
      simp only [List.cons.injEq, and_true]
      omega
    | [a, b] =>
      have ha : a < 256 := hb a (by simp)
      have hbb : b < 256 := hb b (by simp)
      simp only [b64Encode, b64Decode, eq_self_iff_true, if_true]
      rw [if_neg (tbl_ne_pad _ (by omega))]
      rw [untbl_tbl _ (by omega), untbl_tbl _ (by omega), untbl_tbl _ (by omega)]
      simp only [List.cons.injEq, and_true]
      omega
    | a :: b :: c :: rest =>
      have ha : a < 256 := hb a (by simp)
      have hbb : b < 256 := hb b (by simp)
      have hc : c < 256 := hb c (by simp)
      simp only [b64Encode, b64Decode]
      rw [if_neg (tbl_ne_pad _ (by omega)), if_neg (tbl_ne_pad _ (by omega))]
      rw [untbl_tbl _ (by omega), untbl_tbl _ (by omega), untbl_tbl _ (by omega),
        untbl_tbl _ (by omega)]
      rw [ih rest (by simp at hl; omega) (fun x hx => hb x (by simp [hx]))]
      simp only [List.cons.injEq, and_true]
      refine ⟨by omega, by omega, by omega⟩

lemma b64Encode_inj {l1 l2 : List Nat} (h1 : ∀ b ∈ l1, b < 256)
    (h2 : ∀ b ∈ l2, b < 256) (he : b64Encode l1 = b64Encode l2) : l1 = l2 := by
  rw [← b64_roundtrip l1.length l1 le_rfl h1,
    ← b64_roundtrip l2.length l2 le_rfl h2, he]

lemma digitsRevFuel_lt10 : ∀ (fuel n : Nat), ∀ d ∈ digitsRevFuel fuel n, d < 10 := by
  intro fuel
  induction fuel with
  | zero => intro n d hd; simp [digitsRevFuel] at hd
  | succ f ih =>
    intro n d hd
    simp only [digitsRevFuel] at hd
    by_cases h : n < 10
    · rw [if_pos h] at hd
      simp at hd
      omega
    · rw [if_neg h] at hd
      rcases List.mem_cons.mp hd with h1 | h1
      · omega
      · exact ih _ d h1

lemma digitsRevFuel_ne_nil : ∀ (fuel n : Nat), 0 < fuel →
    digitsRevFuel fuel n ≠ [] := by
  intro fuel n h
  cases fuel with
  | zero => omega
  | succ f =>
    simp only [digitsRevFuel]
    by_cases hn : n < 10
    · rw [if_pos hn]; simp
    · rw [if_neg hn]; simp

lemma valDR_digits : ∀ (fuel n : Nat), n < fuel →
    valDR (digitsRevFuel fuel n) = n := by
  intro fuel
  induction fuel with
  | zero => intro n h; omega
  | succ f ih =>
    intro n h
    simp only [digitsRevFuel]
    by_cases hn : n < 10
    · rw [if_pos hn]
      simp [valDR]
    · rw [if_neg hn]
      simp only [valDR]
      rw [ih (n / 10) (by omega)]
      omega

lemma digitChar_inj : ∀ a, a < 10 → ∀ b, b < 10 →
    digitChar a = digitChar b → a = b := by decide

lemma digitChar_digit : ∀ d, d < 10 → isDigitCh (digitChar d) = true := by decide

lemma map_digitChar_inj : ∀ l1 l2 : List Nat, (∀ d ∈ l1, d < 10) →
    (∀ d ∈ l2, d < 10) → l1.map digitChar = l2.map digitChar → l1 = l2 := by
  intro l1
  induction l1 with
  | nil =>
    intro l2 _ _ h
    cases l2 with
    | nil => rfl
    | cons e es => simp at h
  | cons d ds ih =>
    intro l2 h1 h2 h
    cases l2 with
    | nil => simp at h
    | cons e es =>
      simp only [List.map_cons, List.cons.injEq] at h
      have hde : d = e :=
        digitChar_inj d (h1 d (by simp)) e (h2 e (by simp)) h.1
      rw [hde, ih es (fun x hx => h1 x (by simp [hx]))
        (fun x hx => h2 x (by simp [hx])) h.2]

lemma renderNat_inj : ∀ n1 n2 : Nat, renderNat n1 = renderNat n2 → n1 = n2 := by
  intro n1 n2 h
  unfold renderNat at h
  have h1 := map_digitChar_inj _ _
    (fun d hd => digitsRevFuel_lt10 _ _ d (List.mem_reverse.mp hd))
    (fun d hd => digitsRevFuel_lt10 _ _ d (List.mem_reverse.mp hd)) h
  have h2 : digitsRevFuel (n1+1) n1 = digitsRevFuel (n2+1) n2 :=
    List.reverse_injective h1
  calc n1 = valDR (digitsRevFuel (n1+1) n1) := (valDR_digits _ _ (by omega)).symm
    _ = valDR (digitsRevFuel (n2+1) n2) := by rw [h2]
    _ = n2 := valDR_digits _ _ (by omega)

lemma renderNat_digits : ∀ n : Nat, ∀ c ∈ renderNat n, isDigitCh c = true := by
  intro n c hc
  unfold renderNat at hc
  obtain ⟨d, hd, rfl⟩ := List.mem_map.mp hc
  exact digitChar_digit d (digitsRevFuel_lt10 _ _ d (List.mem_reverse.mp hd))

lemma renderNat_head_digit : ∀ n : Nat, ∃ c cs, renderNat n = c :: cs ∧
    isDigitCh c = true := by
  intro n
  cases h : renderNat n with
  | nil =>
    exfalso
    apply digitsRevFuel_ne_nil (n+1) n (by omega)
    unfold renderNat at h
    simpa using h
  | cons c cs =>
    exact ⟨c, cs, rfl, renderNat_digits n c (by rw [h]; simp)⟩

lemma goodStr_mem {s : List Char} (h : goodStrB s = true) {c : Char}
    (hc : c ∈ s) : c ≠ '"' ∧ c ≠ '\\' := by
  have h1 := List.all_eq_true.mp h c hc
  simp only [Bool.and_eq_true, Bool.not_eq_true', beq_eq_false_iff_ne] at h1
  exact h1

lemma goodStr_tail {c : Char} {s : List Char}
    (h : goodStrB (c :: s) = true) : goodStrB s = true := by
  simp only [goodStrB, List.all_cons, Bool.and_eq_true] at h ⊢
  exact h.2

lemma digits_munch : ∀ (d1 d2 r1 r2 : List Char),
    (∀ c ∈ d1, isDigitCh c = true) → (∀ c ∈ d2, isDigitCh c = true) →
    (∀ c, r1.head? = some c → isDigitCh c = false) →
    (∀ c, r2.head? = some c → isDigitCh c = false) →
    d1 ++ r1 = d2 ++ r2 → d1 = d2 ∧ r1 = r2 := by
  intro d1
  induction d1 with
  | nil =>
    intro d2 r1 r2 _ hd2 hr1 _ h
    cases d2 with
    | nil => exact ⟨rfl, h⟩
    | cons e es =>
      exfalso
      simp only [List.nil_append] at h
      have hf : isDigitCh e = false := hr1 e (by rw [h]; rfl)
      have ht : isDigitCh e = true := hd2 e (by simp)
      rw [hf] at ht
      cases ht
  | cons c cs ih =>
    intro d2 r1 r2 hd1 hd2 hr1 hr2 h
    cases d2 with
    | nil =>
      exfalso
      simp only [List.nil_append] at h
      have hf : isDigitCh c = false := hr2 c (by rw [← h]; rfl)
      have ht : isDigitCh c = true := hd1 c (by simp)
      rw [hf] at ht
      cases ht
    | cons e es =>
      simp only [List.cons_append, List.cons.injEq] at h
      obtain ⟨rfl, h⟩ := h
      obtain ⟨h3, h4⟩ := ih es r1 r2 (fun x hx => hd1 x (by simp [hx]))
        (fun x hx => hd2 x (by simp [hx])) hr1 hr2 h
      exact ⟨by rw [h3], h4⟩

lemma quote_munch : ∀ (s1 s2 r1 r2 : List Char),
    goodStrB s1 = true → goodStrB s2 = true →
    s1 ++ '"' :: r1 = s2 ++ '"' :: r2 → s1 = s2 ∧ r1 = r2 := by
  intro s1
  induction s1 with
  | nil =>
    intro s2 r1 r2 _ h2 h
    cases s2 with
    | nil => simpa using h
    | cons e es =>
      exfalso
      simp only [List.nil_append, List.cons_append, List.cons.injEq] at h
      exact (goodStr_mem h2 (by simp)).1 h.1.symm
  | cons c cs ih =>
    intro s2 r1 r2 h1 h2 h
    cases s2 with
    | nil =>
      exfalso
      simp only [List.cons_append, List.nil_append, List.cons.injEq] at h
      exact (goodStr_mem h1 (by simp)).1 h.1
    | cons e es =>
      simp only [List.cons_append, List.cons.injEq] at h
      obtain ⟨rfl, h⟩ := h
      obtain ⟨ha, hb⟩ := ih es r1 r2 (goodStr_tail h1) (goodStr_tail h2) h
      exact ⟨by rw [ha], hb⟩

lemma renderInt_munch : ∀ (a b : ℤ) (r1 r2 : List Char),
    (∀ c, r1.head? = some c → isDigitCh c = false ∧ c ≠ '-') →
    (∀ c, r2.head? = some c → isDigitCh c = false ∧ c ≠ '-') →
    renderInt a ++ r1 = renderInt b ++ r2 → a = b ∧ r1 = r2 := by
  intro a b r1 r2 hr1 hr2 h
  cases a with
  | ofNat n =>
    cases b with
    | ofNat m =>
      simp only [renderInt] at h
      obtain ⟨h1, h2⟩ := digits_munch _ _ _ _ (renderNat_digits n)
        (renderNat_digits m) (fun c hc => (hr1 c hc).1)
        (fun c hc => (hr2 c hc).1) h
      exact ⟨by rw [renderNat_inj _ _ h1], h2⟩
    | negSucc m =>
      exfalso
      simp only [renderInt] at h
      obtain ⟨c, cs, hc, hcd⟩ := renderNat_head_digit n
      rw [hc] at h
      simp only [List.cons_append, List.cons.injEq] at h
      rw [h.1] at hcd
      exact absurd hcd (by decide)
  | negSucc n =>
    cases b with
    | ofNat m =>
      exfalso
      simp only [renderInt] at h
      obtain ⟨c, cs, hc, hcd⟩ := renderNat_head_digit m
      rw [hc] at h
      simp only [List.cons_append, List.cons.injEq] at h
      rw [← h.1] at hcd
      exact absurd hcd (by decide)
    | negSucc m =>
      simp only [renderInt, List.cons_append, List.cons.injEq, true_and] at h
      obtain ⟨h1, h2⟩ := digits_munch _ _ _ _ (renderNat_digits (n+1))
        (renderNat_digits (m+1)) (fun c hc => (hr1 c hc).1)
        (fun c hc => (hr2 c hc).1) h
      have hnm := renderNat_inj _ _ h1
      exact ⟨by rw [show n = m from by omega], h2⟩

lemma renderAtom_munch : ∀ (a1 a2 : JAtom) (r1 r2 : List Char),
    goodAtom a1 = true → goodAtom a2 = true →
    (∀ c, r1.head? = some c → c = ',' ∨ c = '}') →
    (∀ c, r2.head? = some c → c = ',' ∨ c = '}') →
    renderAtom a1 ++ r1 = renderAtom a2 ++ r2 → a1 = a2 ∧ r1 = r2 := by
  intro a1 a2 r1 r2 hg1 hg2 hr1 hr2 h
  have hs1 : ∀ c, r1.head? = some c → isDigitCh c = false ∧ c ≠ '-' := by
    intro c hc
    rcases hr1 c hc with rfl | rfl
    · exact ⟨by decide, by decide⟩
    · exact ⟨by decide, by decide⟩
  have hs2 : ∀ c, r2.head? = some c → isDigitCh c = false ∧ c ≠ '-' := by
    intro c hc
    rcases hr2 c hc with rfl | rfl
    · exact ⟨by decide, by decide⟩
    · exact ⟨by decide, by decide⟩
  cases a1 with
  | jnum n =>
    cases a2 with
    | jnum m =>
      simp only [renderAtom] at h
      obtain ⟨h1, h2⟩ := renderInt_munch _ _ _ _ hs1 hs2 h
      exact ⟨by rw [h1], h2⟩
    | jstr t =>
      exfalso
      simp only [renderAtom] at h
      cases n with
      | ofNat k =>
        obtain ⟨c, cs, hc, hcd⟩ := renderNat_head_digit k
        simp only [renderInt, hc, List.cons_append, List.cons.injEq] at h
        rw [h.1] at hcd
        exact absurd hcd (by decide)
      | negSucc k =>
        simp only [renderInt, List.cons_append, List.cons.injEq] at h
        exact absurd h.1 (by decide)
  | jstr t =>
    cases a2 with
    | jnum m =>
      exfalso
      simp only [renderAtom] at h
      cases m with
      | ofNat k =>
        obtain ⟨c, cs, hc, hcd⟩ := renderNat_head_digit k
        simp only [renderInt, hc, List.cons_append, List.cons.injEq] at h
        rw [← h.1] at hcd
        exact absurd hcd (by decide)
      | negSucc k =>
        simp only [renderInt, List.cons_append, List.cons.injEq] at h
        exact absurd h.1 (by decide)
    | jstr u =>
      simp only [renderAtom, List.cons_append, List.append_assoc,
        List.singleton_append, List.cons.injEq, true_and] at h
      obtain ⟨ha, hb⟩ := quote_munch t u r1 r2 hg1 hg2 h
      exact ⟨by rw [ha], hb⟩

lemma goodFieldsA_head {f : List Char × JAtom} {fs : List (List Char × JAtom)}
    (h : goodFieldsA (f :: fs) = true) :
    goodStrB f.1 = true ∧ goodAtom f.2 = true ∧ goodFieldsA fs = true := by
  simp only [goodFieldsA, List.all_cons, Bool.and_eq_true] at h
  exact ⟨h.1.1, h.1.2, h.2⟩

lemma renderFieldsA_head : ∀ (fs : List (List Char × JAtom)) (r : List Char)
    (c : Char), (renderFieldsA fs ++ r).head? = some c → c = ',' ∨ c = '}' := by
  intro fs r c h
  cases fs with
  | nil =>
    right
    simp only [renderFieldsA, List.singleton_append, List.head?_cons,
      Option.some.injEq] at h
    exact h.symm
  | cons f fs =>
    left
    simp only [renderFieldsA, List.cons_append, List.head?_cons,
      Option.some.injEq] at h
    exact h.symm

lemma fieldA_munch : ∀ (f1 f2 : List Char × JAtom) (r1 r2 : List Char),
    goodStrB f1.1 = true → goodAtom f1.2 = true →
    goodStrB f2.1 = true → goodAtom f2.2 = true →
    (∀ c, r1.head? = some c → c = ',' ∨ c = '}') →
    (∀ c, r2.head? = some c → c = ',' ∨ c = '}') →
    renderFieldA f1 ++ r1 = renderFieldA f2 ++ r2 → f1 = f2 ∧ r1 = r2 := by
  rintro ⟨k1, a1⟩ ⟨k2, a2⟩ r1 r2 hk1 ha1 hk2 ha2 hr1 hr2 h
  simp only [renderFieldA, List.cons_append, List.append_assoc,
    List.cons.injEq, true_and] at h
  obtain ⟨hk, h2⟩ := quote_munch k1 k2 _ _ hk1 hk2 h
  simp only [List.cons.injEq, true_and] at h2
  obtain ⟨haa, hrr⟩ := renderAtom_munch a1 a2 r1 r2 ha1 ha2 hr1 hr2 h2
  exact ⟨by rw [hk, haa], hrr⟩

lemma fieldsA_munch : ∀ (fs1 fs2 : List (List Char × JAtom)) (r1 r2 : List Char),
    goodFieldsA fs1 = true → goodFieldsA fs2 = true →
    renderFieldsA fs1 ++ r1 = renderFieldsA fs2 ++ r2 → fs1 = fs2 ∧ r1 = r2 := by
  intro fs1
  induction fs1 with
  | nil =>
    intro fs2 r1 r2 _ h2 h
    cases fs2 with
    | nil => simpa [renderFieldsA] using h
    | cons g gs =>
      exfalso
      simp only [renderFieldsA, List.cons_append, List.singleton_append,
        List.cons.injEq] at h
      exact absurd h.1 (by decide)
  | cons f fs ih =>
    intro fs2 r1 r2 h1 h2 h
    cases fs2 with
    | nil =>
      exfalso
      simp only [renderFieldsA, List.cons_append, List.singleton_append,
        List.cons.injEq] at h
      exact absurd h.1 (by decide)
    | cons g gs =>
      obtain ⟨hf1, hf2, hf3⟩ := goodFieldsA_head h1
      obtain ⟨hg1, hg2, hg3⟩ := goodFieldsA_head h2
      simp only [renderFieldsA, List.cons_append, List.append_assoc,
        List.cons.injEq, true_and] at h
      obtain ⟨hfg, hrest⟩ := fieldA_munch f g _ _ hf1 hf2 hg1 hg2
        (renderFieldsA_head fs r1) (renderFieldsA_head gs r2) h
      obtain ⟨hfs, hr⟩ := ih gs _ _ hf3 hg3 hrest
      exact ⟨by rw [hfg, hfs], hr⟩

lemma renderObjA_head : ∀ fs : List (List Char × JAtom),
    ∃ t, renderObjA fs = '{' :: t := by
  intro fs
  cases fs <;> exact ⟨_, rfl⟩

lemma renderObjA_munch : ∀ (fs1 fs2 : List (List Char × JAtom))
    (r1 r2 : List Char), goodFieldsA fs1 = true → goodFieldsA fs2 = true →
    renderObjA fs1 ++ r1 = renderObjA fs2 ++ r2 → fs1 = fs2 ∧ r1 = r2 := by
  intro fs1 fs2 r1 r2 h1 h2 h
  cases fs1 with
  | nil =>
    cases fs2 with
    | nil => simpa [renderObjA] using h
    | cons g gs =>
      exfalso
      simp only [renderObjA, renderFieldA, List.cons_append, List.append_assoc,
        List.singleton_append, List.cons.injEq, true_and] at h
      exact absurd h.1 (by decide)
  | cons f fs =>
    cases fs2 with
    | nil =>
      exfalso
      simp only [renderObjA, renderFieldA, List.cons_append, List.append_assoc,
        List.singleton_append, List.cons.injEq, true_and] at h
      exact absurd h.1 (by decide)
    | cons g gs =>
      obtain ⟨hf1, hf2, hf3⟩ := goodFieldsA_head h1
      obtain ⟨hg1, hg2, hg3⟩ := goodFieldsA_head h2
      simp only [renderObjA, List.cons_append, List.append_assoc,
        List.cons.injEq, true_and] at h
      obtain ⟨hfg, hrest⟩ := fieldA_munch f g _ _ hf1 hf2 hg1 hg2
        (renderFieldsA_head fs r1) (renderFieldsA_head gs r2) h
      obtain ⟨hfs, hr⟩ := fieldsA_munch fs gs _ _ hf3 hg3 hrest
      exact ⟨by rw [hfg, hfs], hr⟩

lemma goodObj_head {f : List Char × JVal} {fs : JObj}
    (h : goodObj (f :: fs) = true) :
    goodStrB f.1 = true ∧ goodVal f.2 = true ∧ goodObj fs = true := by
  simp only [goodObj, List.all_cons, Bool.and_eq_true] at h
  exact ⟨h.1.1, h.1.2, h.2⟩

lemma renderFields_head : ∀ (fs : JObj) (r : List Char) (c : Char),
    (renderFields fs ++ r).head? = some c → c = ',' ∨ c = '}' := by
  intro fs r c h
  cases fs with
  | nil =>
    right
    simp only [renderFields, List.singleton_append, List.head?_cons,
      Option.some.injEq] at h
    exact h.symm
  | cons f fs =>
    left
    simp only [renderFields, List.cons_append, List.head?_cons,
      Option.some.injEq] at h
    exact h.symm

lemma renderVal_munch : ∀ (v1 v2 : JVal) (r1 r2 : List Char),
    goodVal v1 = true → goodVal v2 = true →
    (∀ c, r1.head? = some c → c = ',' ∨ c = '}') →
    (∀ c, r2.head? = some c → c = ',' ∨ c = '}') →
    renderVal v1 ++ r1 = renderVal v2 ++ r2 → v1 = v2 ∧ r1 = r2 := by
  intro v1 v2 r1 r2 h1 h2 hr1 hr2 h
  cases v1 with
  | atom a1 =>
    cases v2 with
    | atom a2 =>
      obtain ⟨ha, hr⟩ := renderAtom_munch a1 a2 r1 r2 h1 h2 hr1 hr2 h
      exact ⟨by rw [ha], hr⟩
    | obj fs2 =>
      exfalso
      obtain ⟨t, ht⟩ := renderObjA_head fs2
      simp only [renderVal, ht, List.cons_append] at h
      cases a1 with
      | jnum n =>
        cases n with
        | ofNat k =>
          obtain ⟨c, cs, hc, hcd⟩ := renderNat_head_digit k
          simp only [renderAtom, renderInt, hc, List.cons_append,
            List.cons.injEq] at h
          rw [h.1] at hcd
          exact absurd hcd (by decide)
        | negSucc k =>
          simp only [renderAtom, renderInt, List.cons_append,
            List.cons.injEq] at h
          exact absurd h.1 (by decide)
      | jstr t1 =>
        simp only [renderAtom, List.cons_append, List.cons.injEq] at h
        exact absurd h.1 (by decide)
  | obj fs1 =>
    cases v2 with
    | atom a2 =>
      exfalso
      obtain ⟨t, ht⟩ := renderObjA_head fs1
      simp only [renderVal, ht, List.cons_append] at h
      cases a2 with
      | jnum n =>
        cases n with
        | ofNat k =>
          obtain ⟨c, cs, hc, hcd⟩ := renderNat_head_digit k
          simp only [renderAtom, renderInt, hc, List.cons_append,
            List.cons.injEq] at h
          rw [← h.1] at hcd
          exact absurd hcd (by decide)
        | negSucc k =>
          simp only [renderAtom, renderInt, List.cons_append,
            List.cons.injEq] at h
          exact absurd h.1 (by decide)
      | jstr t2 =>
        simp only [renderAtom, List.cons_append, List.cons.injEq] at h
        exact absurd h.1 (by decide)
    | obj fs2 =>
      obtain ⟨hf, hr⟩ := renderObjA_munch fs1 fs2 r1 r2 h1 h2 h
      exact ⟨by rw [hf], hr⟩

lemma fieldV_munch : ∀ (f1 f2 : List Char × JVal) (r1 r2 : List Char),
    goodStrB f1.1 = true → goodVal f1.2 = true →
    goodStrB f2.1 = true → goodVal f2.2 = true →
    (∀ c, r1.head? = some c → c = ',' ∨ c = '}') →
    (∀ c, r2.head? = some c → c = ',' ∨ c = '}') →
    renderField f1 ++ r1 = renderField f2 ++ r2 → f1 = f2 ∧ r1 = r2 := by
  rintro ⟨k1, v1⟩ ⟨k2, v2⟩ r1 r2 hk1 hv1 hk2 hv2 hr1 hr2 h
  simp only [renderField, List.cons_append, List.append_assoc,
    List.cons.injEq, true_and] at h
  obtain ⟨hk, h2⟩ := quote_munch k1 k2 _ _ hk1 hk2 h
  simp only [List.cons.injEq, true_and] at h2
  obtain ⟨hvv, hrr⟩ := renderVal_munch v1 v2 r1 r2 hv1 hv2 hr1 hr2 h2
  exact ⟨by rw [hk, hvv], hrr⟩

lemma fieldsV_munch : ∀ (fs1 fs2 : JObj) (r1 r2 : List Char),
    goodObj fs1 = true → goodObj fs2 = true →
    renderFields fs1 ++ r1 = renderFields fs2 ++ r2 → fs1 = fs2 ∧ r1 = r2 := by
  intro fs1
  induction fs1 with
  | nil =>
    intro fs2 r1 r2 _ h2 h
    cases fs2 with
    | nil => simpa [renderFields] using h
    | cons g gs =>
      exfalso
      simp only [renderFields, List.cons_append, List.singleton_append,
        List.cons.injEq] at h
      exact absurd h.1 (by decide)
  | cons f fs ih =>
    intro fs2 r1 r2 h1 h2 h
    cases fs2 with
    | nil =>
      exfalso
      simp only [renderFields, List.cons_append, List.singleton_append,
        List.cons.injEq] at h
      exact absurd h.1 (by decide)
    | cons g gs =>
      obtain ⟨hf1, hf2, hf3⟩ := goodObj_head h1
      obtain ⟨hg1, hg2, hg3⟩ := goodObj_head h2
      simp only [renderFields, List.cons_append, List.append_assoc,
        List.cons.injEq, true_and] at h
      obtain ⟨hfg, hrest⟩ := fieldV_munch f g _ _ hf1 hf2 hg1 hg2
        (renderFields_head fs r1) (renderFields_head gs r2) h
      obtain ⟨hfs, hr⟩ := ih gs _ _ hf3 hg3 hrest
      exact ⟨by rw [hfg, hfs], hr⟩

lemma stringifyObj_inj {o1 o2 : JObj} (h1 : goodObj o1 = true)
    (h2 : goodObj o2 = true) (h : stringifyObj o1 = stringifyObj o2) :
    o1 = o2 := by
  cases o1 with
  | nil =>
    cases o2 with
    | nil => rfl
    | cons g gs =>
      exfalso
      simp only [stringifyObj, renderField, List.cons_append, List.append_assoc,
        List.singleton_append, List.cons.injEq, true_and] at h
      exact absurd h.1 (by decide)
  | cons f fs =>
    cases o2 with
    | nil =>
      exfalso
      simp only [stringifyObj, renderField, List.cons_append, List.append_assoc,
        List.singleton_append, List.cons.injEq, true_and] at h
      exact absurd h.1 (by decide)
    | cons g gs =>
      obtain ⟨hf1, hf2, hf3⟩ := goodObj_head h1
      obtain ⟨hg1, hg2, hg3⟩ := goodObj_head h2
      have h' : ('{' :: (renderField f ++ renderFields fs)) ++ ([] : List Char) =
          ('{' :: (renderField g ++ renderFields gs)) ++ ([] : List Char) := by
        simpa [stringifyObj] using h
      simp only [List.cons_append, List.append_assoc, List.cons.injEq,
        true_and] at h'
      obtain ⟨hfg, hrest⟩ := fieldV_munch f g _ _ hf1 hf2 hg1 hg2
        (renderFields_head fs []) (renderFields_head gs []) h'
      obtain ⟨hfs, _⟩ := fieldsV_munch fs gs _ _ hf3 hg3 hrest
      rw [hfg, hfs]

lemma escapeJson_cons (c : Char) (cs : List Char) :
    escapeJson (c :: cs) =
      (if c = '"' then ['\\', '"'] else if c = '\\' then ['\\', '\\'] else [c]) ++
        escapeJson cs := by
  simp [escapeJson]

lemma unescapeJson_cons_ne {c : Char} (h : ¬ c = '\\') (rest : List Char) :
    unescapeJson (c :: rest) = c :: unescapeJson rest := by
  rw [unescapeJson.eq_def]
  split
  · rename_i heq
    cases heq
  · rename_i c2 rest2 heq
    cases heq
    rw [if_neg h]

lemma unescape_escape : ∀ s : List Char, unescapeJson (escapeJson s) = s := by
  intro s
  induction s with
  | nil => rfl
  | cons c cs ih =>
    rw [escapeJson_cons]
    by_cases h1 : c = '"'
    · subst h1
      rw [if_pos rfl]
      show unescapeJson ('\\' :: '"' :: escapeJson cs) = '"' :: cs
      rw [show unescapeJson ('\\' :: '"' :: escapeJson cs) =
        '"' :: unescapeJson (escapeJson cs) from rfl, ih]
    · by_cases h2 : c = '\\'
      · subst h2
        rw [if_neg h1, if_pos rfl]
        show unescapeJson ('\\' :: '\\' :: escapeJson cs) = '\\' :: cs
        rw [show unescapeJson ('\\' :: '\\' :: escapeJson cs) =
          '\\' :: unescapeJson (escapeJson cs) from rfl, ih]
      · rw [if_neg h1, if_neg h2]
        show unescapeJson (c :: escapeJson cs) = c :: cs
        rw [unescapeJson_cons_ne h2, ih]

lemma escapeJson_inj {s1 s2 : List Char} (h : escapeJson s1 = escapeJson s2) :
    s1 = s2 := by
  rw [← unescape_escape s1, ← unescape_escape s2, h]

lemma charToNat_inj {c d : Char} (h : c.toNat = d.toNat) : c = d := by
  have h2 := congrArg Char.ofNat h
  simpa [Char.ofNat_toNat] using h2

lemma map_toNat_inj : ∀ l1 l2 : List Char,
    l1.map Char.toNat = l2.map Char.toNat → l1 = l2 := by
  intro l1
  induction l1 with
  | nil =>
    intro l2 h
    cases l2 with
    | nil => rfl
    | cons d ds => simp at h
  | cons c cs ih =>
    intro l2 h
    cases l2 with
    | nil => simp at h
    | cons d ds =>
      simp only [List.map_cons, List.cons.injEq] at h
      rw [charToNat_inj h.1, ih ds h.2]

lemma keyString_opts_inj (url : List Char) (custom : Option (List Char))
    {o1 o2 : JObj}
    (h : keyString url custom (some o1) = keyString url custom (some o2)) :
    stringifyObj o1 = stringifyObj o2 := by
  simp only [keyString, List.append_assoc, List.cons_append, List.cons.injEq,
    true_and] at h
  replace h := List.append_cancel_left h
  replace h := List.append_cancel_left h
  replace h := List.append_cancel_left h
  simp only [List.cons.injEq, true_and] at h
  replace h := List.append_cancel_left h
  simp only [renderJStr, List.cons_append, List.append_assoc,
    List.cons.injEq, true_and] at h
  replace h := List.append_cancel_right h
  exact escapeJson_inj h

/-- C5 (amended): the cache key is a function of the URL, the caller
id, and the ordered option fields; two requests over the same URL and
caller id whose option objects differ anywhere — in particular in a
single option field — produce different keys. -/
theorem cache_key_field_sensitivity :
    ∀ (url : List Char) (custom : Option (List Char)) (o1 o2 : JObj),
      goodObj o1 = true → goodObj o2 = true →
      btoaOk (keyString url custom (some o1)) = true →
      btoaOk (keyString url custom (some o2)) = true →
      o1 ≠ o2 →
      getCacheKey url custom (some o1) ≠ getCacheKey url custom (some o2) := by
  intro url custom o1 o2 hg1 hg2 hb1 hb2 hne h
  apply hne
  simp only [getCacheKey] at h
  rw [if_pos hb1, if_pos hb2] at h
  replace h := List.append_cancel_left h
  have hc1 : ∀ b ∈ (keyString url custom (some o1)).map Char.toNat, b < 256 := by
    intro b hbm
    obtain ⟨c, hc, rfl⟩ := List.mem_map.mp hbm
    have h3 := List.all_eq_true.mp hb1 c hc
    simpa using h3
  have hc2 : ∀ b ∈ (keyString url custom (some o2)).map Char.toNat, b < 256 := by
    intro b hbm
    obtain ⟨c, hc, rfl⟩ := List.mem_map.mp hbm
    have h3 := List.all_eq_true.mp hb2 c hc
    simpa using h3
  have hbytes := b64Encode_inj hc1 hc2 h
  have hks := map_toNat_inj _ _ hbytes
  exact stringifyObj_inj hg1 hg2 (keyString_opts_inj url custom hks)

set_option maxRecDepth 100000 in
/-- C5 (counterexample): `{width: 400, height: 300}` and
`{height: 300, width: 400}` are the same logical options (a permutation
of the same fields), yet `JSON.stringify` preserves insertion order, so
`getCacheKey` maps them to different keys — key derivation is not
order-independent. -/
theorem cache_key_order_dependent :
    optsWH.Perm optsHW ∧
    getCacheKey "u".toList none (some optsWH) ≠
      getCacheKey "u".toList none (some optsHW) := by
  constructor
  · decide
  · decide

set_option maxRecDepth 100000 in
/-- Witness for C5 (amended): same URL and caller id, options differing
in the single field `height` (300 vs 301) yield different keys. -/
theorem cache_key_sensitivity_witness :
    getCacheKey "u".toList none (some optsWH) ≠
      getCacheKey "u".toList none (some optsWH301) :=
  cache_key_field_sensitivity "u".toList none optsWH optsWH301 (by decide)
    (by decide) (by decide) (by decide) (by decide)

end ModelsLib
